import Mathlib

/-!
Verification of the `fedit` repository: a shallow embedding in Lean 4 of the
plain-text edit tool (`bin/fedit.py`), the structured JSON edit tool
(`bin/fedit_structured_json.py`) and the line-oriented YAML/TOML edit tool
(`bin/fedit_structured_yaml_toml.py`), together with theorems settling the
specification's testable properties.

Modelling conventions:
* Text and raw bytes are both modelled as `List Char`.  The tools decode with a
  caller-chosen encoding; all properties verified here concern the decoded
  character sequence, so decoding is modelled as the identity on success, with
  an explicit success flag for the failure paths.
* Python while-loops whose cursor strictly advances are modelled with an
  explicit fuel argument (fuel exceeding the text length), so that every
  definition is structurally recursive and evaluates inside the kernel.
* Python `str.isspace` / regex `\s` are modelled over the six ASCII whitespace
  characters (space, tab, newline, carriage return, vertical tab, form feed);
  exotic Unicode whitespace is outside the modelled input range.
* File-system effects are modelled by explicit inputs (file present/absent,
  read/decode success, write success/failure) and an output record giving the
  final on-disk content of the target and whether a temporary file remains.
-/

set_option maxHeartbeats 1000000

abbrev Chars := List Char

deriving instance DecidableEq for Except

/-- Python `str.isspace` / regex `\s`, restricted to ASCII whitespace. -/
def isPySpace (c : Char) : Bool :=
  c = ' ' ∨ c = '\t' ∨ c = '\n' ∨ c = '\r' ∨ c = '\x0b' ∨ c = '\x0c'

/-! ### First occurrence of a pattern (Python `str.find`) -/

/-- Position of the first occurrence of `s` in `t` (`none` when absent). -/
def firstOcc (s : Chars) : Chars → Option Nat
  | [] => if s <+: ([] : Chars) then some 0 else none
  | c :: t => if s <+: (c :: t) then some 0 else (firstOcc s t).map (· + 1)

/-- `occursAt t s i` says that `s` occurs in `t` starting at position `i`. -/
def occursAt (t s : Chars) (i : Nat) : Prop := s <+: t.drop i

instance (t s : Chars) (i : Nat) : Decidable (occursAt t s i) :=
  inferInstanceAs (Decidable (s <+: t.drop i))

/-! ### Python `str.count` (non-overlapping, greedy left-to-right) -/

/-- Fuel-indexed greedy non-overlapping occurrence counter; behaves like
Python `str.count`/`bytes.count` when fuel exceeds the text length. -/
def countOccF : Nat → Chars → Chars → Nat
  | 0, _, _ => 0
  | fuel + 1, t, s =>
    if s ≠ [] ∧ s <+: t then 1 + countOccF fuel (t.drop s.length) s
    else
      match t with
      | [] => 0
      | _ :: t' => countOccF fuel t' s

/-- Number of non-overlapping occurrences of `s` in `t` (Python `t.count(s)`,
for non-empty `s`). -/
def countOcc (t s : Chars) : Nat := countOccF (t.length + 1) t s

/-! ### Python `str.replace` -/

/-- Fuel-indexed model of Python `str.replace(s, r)`: replaces non-overlapping
occurrences left to right; an empty pattern inserts `r` around every
character, as in Python. -/
def pyReplaceF : Nat → Chars → Chars → Chars → Chars
  | 0, t, _, _ => t
  | fuel + 1, t, s, r =>
    if s = [] then r ++ t.flatMap (fun c => c :: r)
    else if s <+: t then r ++ pyReplaceF fuel (t.drop s.length) s r
    else
      match t with
      | [] => []
      | c :: t' => c :: pyReplaceF fuel t' s r

/-- Python `t.replace(s, r)`. -/
def pyReplace (t s r : Chars) : Chars := pyReplaceF (t.length + 1) t s r

/-! ### The exact-match scan loop of `bin/fedit.py` (lines 156-163)

The loop repeatedly calls `text.find(search, start)` and advances the cursor
to the end of each found span.  `findFrom` models Python `str.find` (absolute
position, `none` for `-1`); `exactScanF` is the fuel-indexed loop. -/

/-- Python `text.find(search, start)`. -/
def findFrom (t s : Chars) (start : Nat) : Option Nat :=
  if start ≤ t.length then (firstOcc s (t.drop start)).map (· + start) else none

/-- Fuel-indexed model of the exact-match `while` loop: collect `(start, end)`
spans, resuming the search at the end of each span. -/
def exactScanF : Nat → Chars → Chars → Nat → List (Nat × Nat)
  | 0, _, _, _ => []
  | fuel + 1, t, s, start =>
    match findFrom t s start with
    | none => []
    | some i => (i, i + s.length) :: exactScanF fuel t s (i + s.length)

/-- The match list computed by the exact branch of `main` (fuel suffices for
every non-empty search string). -/
def exactMatches (t s : Chars) : List (Nat × Nat) := exactScanF (t.length + 1) t s 0

/-- The replace-all reconstruction of `main` (lines 184-192): copy before each
span, copy the replacement, resume after the span, then copy the tail. -/
def spliceFrom (t : Chars) : Nat → List (Nat × Nat) → Chars → Chars
  | prev, [], _ => t.drop prev
  | prev, (a, b) :: rest, r => (t.drop prev).take (a - prev) ++ r ++ spliceFrom t b rest r

/-! ### Line-ending detection and escape translation (`bin/fedit.py` 12-27, 177-182) -/

inductive LineVariant where
  | crlf : LineVariant
  | lf : LineVariant

deriving DecidableEq

/-- `_detect_line_endings` of `bin/fedit.py`: dominant line ending of the raw
bytes, `none` when the file contains no `\n` at all. -/
def detect_line_endings (raw : Chars) : Option LineVariant :=
  let crlf := countOcc raw ['\r', '\n']
  let lfOnly := raw.count '\n' - crlf
  if crlf = 0 ∧ lfOnly = 0 then none
  else if lfOnly ≤ crlf then some .crlf
  else some .lf

/-- `_detect_target_ending` of `bin/fedit.py` (lines 22-27): the concrete
terminator string for the detected variant (`"\r\n"`, `"\n"`, or `None`). -/
def detect_target_ending : Option LineVariant → Option Chars
  | some .crlf => some ['\r', '\n']
  | some .lf => some ['\n']
  | none => none

/-- The replacement translation of `main` (lines 177-182): the two-character
escape `\n` becomes a real newline; the guard on line 179 then compares
`line_ending` — a terminator string from `_detect_target_ending` — with the
literal string `"crlf"`, a comparison that is never true, so the branch
rewriting `\n` to `\r\n` is never taken. -/
def translateRep (rep : Chars) (le : Option LineVariant) : Chars :=
  let lineEnding := detect_target_ending le
  let norm := pyReplace rep ['\\', 'n'] ['\n']
  if lineEnding = some ['c', 'r', 'l', 'f'] then pyReplace norm ['\n'] ['\r', '\n']
  else norm

/-- Joining segments with a separator (used to express what the escape
translation does to a replacement built from newline markers). -/
def joinSep (sep : Chars) : List Chars → Chars
  | [] => []
  | [x] => x
  | x :: y :: rest => x ++ sep ++ joinSep sep (y :: rest)

/-! ### Whitespace-insensitive matching (`bin/fedit.py` 30-44, 151-155)

`_build_ws_pattern` compiles the search string into a regex in which each
maximal whitespace run becomes `\s+` and every other character is escaped.
We model the compiled pattern as a token list.  Because literal tokens are
never whitespace and two whitespace tokens are never adjacent, the greedy
regex engine deterministically consumes the maximal whitespace run at each
`\s+`, which is how `matchToks` is defined. -/

inductive Tok where
  | lit : Char → Tok
  | ws : Tok

deriving DecidableEq

/-- The run-compression loop of `_build_ws_pattern`, with the position in a
whitespace run tracked by a flag instead of an inner cursor loop. -/
def buildWsGo : Bool → Chars → List Tok
  | _, [] => []
  | prevWs, c :: rest =>
    if isPySpace c then (if prevWs then [] else [Tok.ws]) ++ buildWsGo true rest
    else Tok.lit c :: buildWsGo false rest

/-- The compiled whitespace-insensitive pattern of `_build_ws_pattern`. -/
def buildWsTokens (s : Chars) : List Tok := buildWsGo false s

/-- Matching the compiled pattern at the start of `xs`, returning the number
of consumed characters: `\s+` consumes the maximal whitespace run (which is
what the greedy regex engine does, since the next token is never whitespace)
and a literal consumes exactly its character. -/
def matchToks : List Tok → Chars → Option Nat
  | [], _ => some 0
  | Tok.lit c :: ts, xs =>
    match xs with
    | [] => none
    | x :: xs' => if x = c then (matchToks ts xs').map (· + 1) else none
  | Tok.ws :: ts, xs =>
    let run := (xs.takeWhile isPySpace).length
    if run = 0 then none else (matchToks ts (xs.drop run)).map (· + run)

/-- Normal form for whitespace-insensitive comparison: every maximal
whitespace run becomes a single space. -/
def collapseGo : Bool → Chars → Chars
  | _, [] => []
  | prevWs, c :: rest =>
    if isPySpace c then (if prevWs then [] else [' ']) ++ collapseGo true rest
    else c :: collapseGo false rest

/-- Whitespace-run normalization of a string. -/
def collapseWs (u : Chars) : Chars := collapseGo false u

/-- A collapsed character as a pattern token. -/
def tokOf (c : Char) : Tok := if c = ' ' then Tok.ws else Tok.lit c

/-! ### The `finditer` scan and the pure core of `main` in `bin/fedit.py` -/

/-- Fuel-indexed model of `re.finditer`: try the pattern at every position,
left to right; resume after each match (bumping by one on zero-width
matches, as the Python engine does). -/
def reScanF : Nat → List Tok → Chars → Nat → List (Nat × Nat)
  | 0, _, _, _ => []
  | fuel + 1, toks, text, p =>
    if p ≤ text.length then
      match matchToks toks (text.drop p) with
      | some n => if n = 0 then (p, p) :: reScanF fuel toks text (p + 1)
                  else (p, p + n) :: reScanF fuel toks text (p + n)
      | none => reScanF fuel toks text (p + 1)
    else []

/-- All matches of a compiled pattern over a text (`re.finditer`). -/
def reScan (toks : List Tok) (text : Chars) : List (Nat × Nat) :=
  reScanF (text.length + 1) toks text 0

/-- Errors of the matching phase of `main` (exit code 1 paths). -/
inductive EditErr where
  | noMatch : EditErr
  | ambiguous : Nat → EditErr

deriving DecidableEq

/-- The pure core of `main` in `bin/fedit.py` (lines 144-198): compute the
match list according to the mode flags, enforce the one-match-unless
`--multiple` policy, translate the replacement, and build the new text.
`text` is the decoded text and `raw` the raw bytes used for line-ending
detection (identical for ASCII input under the identity decode model).

The non-structured exact branch is stated with the fuelled scan
`exactMatches`; for an empty search string the Python loop does not
terminate, which is proved separately, so theorems about this branch assume
a non-empty search. -/
def feditCompute (text raw search rep : Chars)
    (multiple ignoreWs structured : Bool) : Except EditErr (Chars × Nat) :=
  let spans :=
    if structured then (if search = [] then [] else exactMatches text search)
    else if ignoreWs then reScan (buildWsTokens search) text
    else exactMatches text search
  let count := spans.length
  if count = 0 then .error .noMatch
  else if 1 < count ∧ multiple = false then .error (.ambiguous count)
  else
    let repT := translateRep rep (detect_line_endings raw)
    let final :=
      if ignoreWs then spliceFrom text 0 spans repT
      else if count = 1 then
        match spans with
        | (a, b) :: _ => text.take a ++ repT ++ text.drop b
        | [] => text
      else pyReplace text search repT
    .ok (final, count)

/-- Outcome of a whole command invocation: process exit code, final on-disk
content of the target (`none` when the file does not exist), and whether a
temporary file is left behind. -/
structure CmdResult where
  exit : Nat
  target : Option Chars
  tempLeft : Bool

deriving DecidableEq

/-- Write phase outcome: `ok`, or any exception raised inside the write
block (temp creation, write, fsync, or rename). -/
inductive WriteOutcome where
  | ok : WriteOutcome
  | fail : WriteOutcome

deriving DecidableEq

/-- `main` of `bin/fedit.py` end to end.  File present/absent, read success,
decode success and write success are explicit inputs.  On every write-block
failure the handler removes the temporary file and the target is only ever
replaced by the completed `os.replace`, which is what the returned state
records. -/
def feditMain (search rep : Chars) (multiple dryRun ignoreWs structured : Bool)
    (target : Option Chars) (readOk decodeOk : Bool) (wr : WriteOutcome) : CmdResult :=
  match target with
  | none => ⟨2, none, false⟩
  | some raw =>
    if readOk = false then ⟨2, some raw, false⟩
    else if decodeOk = false then ⟨4, some raw, false⟩
    else
      match feditCompute raw raw search rep multiple ignoreWs structured with
      | .error _ => ⟨1, some raw, false⟩
      | .ok (final, _) =>
        if dryRun then ⟨0, some raw, false⟩
        else
          match wr with
          | .ok => ⟨0, some final, false⟩
          | .fail => ⟨3, some raw, false⟩

/-! ### `bin/fedit_structured_json.py`

JSON values are modelled by a mutual inductive (so that all recursion over
the tree is structural and kernel-evaluable).  `JFields` models a Python
dict in insertion order; keys are unique in any tree produced by
`json.loads`, and lookup/update act on the first occurrence.  Numbers are
modelled as integers (floating point is outside the modelled range). -/

mutual
inductive JValue where
  | null : JValue
  | jbool : Bool → JValue
  | jnum : Int → JValue
  | jstr : Chars → JValue
  | jarr : JList → JValue
  | jobj : JFields → JValue
inductive JList where
  | nil : JList
  | cons : JValue → JList → JList
inductive JFields where
  | fnil : JFields
  | fcons : Chars → JValue → JFields → JFields
end

/-- Dict lookup (`key in d` / `d[key]`). -/
def lookupF : JFields → Chars → Option JValue
  | .fnil, _ => none
  | .fcons k v tl, key => if k = key then some v else lookupF tl key

/-- Dict update of an existing key (`d[key] = v`). -/
def updF : JFields → Chars → JValue → JFields
  | .fnil, _, _ => .fnil
  | .fcons k v tl, key, nv =>
    if k = key then .fcons k nv tl else .fcons k v (updF tl key nv)

/-- The keys of a dict, in order. -/
def keysF : JFields → List Chars
  | .fnil => []
  | .fcons k _ tl => k :: keysF tl

/-- Concatenation of field lists (used to state frame properties). -/
def fapp : JFields → JFields → JFields
  | .fnil, g => g
  | .fcons k v tl, g => .fcons k v (fapp tl g)

/-- List length (`len`). -/
def lenL : JList → Nat
  | .nil => 0
  | .cons _ tl => 1 + lenL tl

/-- List indexing (`xs[i]`, in-bounds only). -/
def getL : JList → Nat → Option JValue
  | .nil, _ => none
  | .cons x _, 0 => some x
  | .cons _ tl, n + 1 => getL tl n

/-- List element assignment (`xs[i] = v`, in-bounds only). -/
def setL : JList → Nat → JValue → JList
  | .nil, _, _ => .nil
  | .cons _ tl, 0, nv => .cons nv tl
  | .cons x tl, n + 1, nv => .cons x (setL tl n nv)

/-- Scalar values: everything a key or index step cannot descend into. -/
def isScalar : JValue → Bool
  | .jarr _ => false
  | .jobj _ => false
  | _ => true

/-- A parsed key-path step (`("key", name)` / `("idx", n)` in the source). -/
inductive Step where
  | key : Chars → Step
  | idx : Int → Step

deriving DecidableEq

/-- Errors raised by `parse_path`: `InvalidKeyPath` for an unterminated
bracket, and Python's `ValueError` escaping from `int()` for non-integer
bracket contents. -/
inductive PErr where
  | invalidKeyPath : PErr
  | valueError : PErr

deriving DecidableEq

/-- Split a list at the first occurrence of a character
(`path_str.find("]", i)` and the slice around it). -/
def splitAtChar (ch : Char) : Chars → Option (Chars × Chars)
  | [] => none
  | c :: rest =>
    if c = ch then some ([], rest)
    else (splitAtChar ch rest).map (fun p => (c :: p.1, p.2))

/-- Characters ending a key token in `parse_path`. -/
def isKeyStop (c : Char) : Bool := c = '.' ∨ c = '['

/-- Strip ASCII whitespace from both ends (Python `int()` tolerance). -/
def stripWs (s : Chars) : Chars :=
  ((s.dropWhile isPySpace).reverse.dropWhile isPySpace).reverse

/-- Accumulate a decimal digit string. -/
def digitsValGo (acc : Nat) : Chars → Option Nat
  | [] => some acc
  | c :: rest =>
    if '0' ≤ c ∧ c ≤ '9' then digitsValGo (acc * 10 + (c.toNat - 48)) rest
    else none

/-- Python `int(s)` for decimal strings: optional surrounding whitespace,
optional sign, at least one digit.  (Underscore separators and non-ASCII
digits, which Python also accepts, are outside the modelled input range.) -/
def pyInt (s : Chars) : Option Int :=
  match stripWs s with
  | '-' :: ds => if ds = [] then none else (digitsValGo 0 ds).map (fun n => -(n : Int))
  | '+' :: ds => if ds = [] then none else (digitsValGo 0 ds).map (fun n => (n : Int))
  | ds => if ds = [] then none else (digitsValGo 0 ds).map (fun n => (n : Int))

/-- Fuel-indexed loop of `parse_path` (the cursor advances at least one
character per iteration). -/
def parsePathF : Nat → Chars → Except PErr (List Step)
  | 0, _ => .ok []
  | _ + 1, [] => .ok []
  | fuel + 1, c :: rest =>
    if c = '.' then parsePathF fuel rest
    else if c = '[' then
      match splitAtChar ']' rest with
      | none => .error .invalidKeyPath
      | some (before, after) =>
        match pyInt before with
        | none => .error .valueError
        | some n => (parsePathF fuel after).map (fun l => Step.idx n :: l)
    else
      let key := (c :: rest).takeWhile (fun ch => !(isKeyStop ch))
      (parsePathF fuel ((c :: rest).drop key.length)).map (fun l => Step.key key :: l)

/-- `parse_path` of `bin/fedit_structured_json.py` (lines 22-46). -/
def parse_path (p : Chars) : Except PErr (List Step) := parsePathF (p.length + 1) p

/-- Errors of navigation/mutation: `InvalidKeyPath` from the navigator and
setter, and the `IndexError` raised by `steps[-1]` on an empty step list
(caught by the generic handler in `main`). -/
inductive NavErr where
  | invalidKeyPath : NavErr
  | indexError : NavErr

deriving DecidableEq

/-- The walk of `navigate_parent` over `steps[:-1]` (lines 50-61). -/
def walkSteps : JValue → List Step → Except NavErr JValue
  | cur, [] => .ok cur
  | cur, .key k :: rest =>
    match cur with
    | .jobj fs =>
      match lookupF fs k with
      | some v => walkSteps v rest
      | none => .error .invalidKeyPath
    | _ => .error .invalidKeyPath
  | cur, .idx n :: rest =>
    match cur with
    | .jarr xs =>
      if 0 ≤ n then
        match getL xs n.toNat with
        | some v => walkSteps v rest
        | none => .error .invalidKeyPath
      else .error .invalidKeyPath
    | _ => .error .invalidKeyPath

/-- `navigate_parent` (lines 49-63): walk all but the last step and return
the parent value together with the last step. -/
def navigate_parent (data : JValue) (steps : List Step) : Except NavErr (JValue × Step) :=
  match steps with
  | [] => .error .indexError
  | st :: sts =>
    (walkSteps data (st :: sts).dropLast).map
      (fun parent => (parent, (st :: sts).getLast (by simp)))

/-- `set_value` (lines 66-76): overwrite the slot named by the last step,
re-checking the parent's shape and the key/index. -/
def set_value (parent : JValue) (last : Step) (v : JValue) : Except NavErr JValue :=
  match last, parent with
  | .key k, .jobj fs =>
    if (lookupF fs k).isSome then .ok (.jobj (updF fs k v)) else .error .invalidKeyPath
  | .idx n, .jarr xs =>
    if 0 ≤ n ∧ n.toNat < lenL xs then .ok (.jarr (setL xs n.toNat v))
    else .error .invalidKeyPath
  | _, _ => .error .invalidKeyPath

/-- Functional rendering of in-place mutation through a reference chain:
walk a step prefix exactly as `walkSteps` does and rebuild the tree with the
located subtree transformed. -/
def updAtSteps : JValue → List Step → (JValue → Except NavErr JValue) → Except NavErr JValue
  | cur, [], f => f cur
  | cur, .key k :: rest, f =>
    match cur with
    | .jobj fs =>
      match lookupF fs k with
      | some v => (updAtSteps v rest f).map (fun v' => .jobj (updF fs k v'))
      | none => .error .invalidKeyPath
    | _ => .error .invalidKeyPath
  | cur, .idx n :: rest, f =>
    match cur with
    | .jarr xs =>
      if 0 ≤ n then
        match getL xs n.toNat with
        | some v => (updAtSteps v rest f).map (fun v' => .jarr (setL xs n.toNat v'))
        | none => .error .invalidKeyPath
      else .error .invalidKeyPath
    | _ => .error .invalidKeyPath

/-- The combined effect on the tree of `navigate_parent` followed by
`set_value` (which mutate `data` through a shared reference in Python). -/
def applyEdit (data : JValue) (steps : List Step) (v : JValue) : Except NavErr JValue :=
  match steps with
  | [] => .error .indexError
  | st :: sts =>
    updAtSteps data (st :: sts).dropLast
      (fun parent => set_value parent ((st :: sts).getLast (by simp)) v)

/-! ### Serialization (`json.dumps(data, indent=indent, ensure_ascii=False)`)
and indentation detection (`detect_indent`). -/

/-- A decimal digit character. -/
def digitChar (d : Nat) : Char :=
  if d = 0 then '0' else if d = 1 then '1' else if d = 2 then '2'
  else if d = 3 then '3' else if d = 4 then '4' else if d = 5 then '5'
  else if d = 6 then '6' else if d = 7 then '7' else if d = 8 then '8' else '9'

/-- A lowercase hexadecimal digit character. -/
def hexChar (d : Nat) : Char :=
  if d < 10 then digitChar d
  else if d = 10 then 'a' else if d = 11 then 'b' else if d = 12 then 'c'
  else if d = 13 then 'd' else if d = 14 then 'e' else 'f'

/-- Decimal digits of a natural number (fuel-indexed division loop). -/
def natToCharsF : Nat → Nat → Chars
  | 0, _ => []
  | fuel + 1, n =>
    if n < 10 then [digitChar n] else natToCharsF fuel (n / 10) ++ [digitChar (n % 10)]

/-- Python `str` of a natural number. -/
def natToChars (n : Nat) : Chars := natToCharsF (n + 1) n

/-- Python `str` of an integer. -/
def intToChars (n : Int) : Chars :=
  if n < 0 then '-' :: natToChars n.natAbs else natToChars n.toNat

/-- JSON string escaping with `ensure_ascii=False`: only the quote, the
backslash and control characters are escaped. -/
def escChar (c : Char) : Chars :=
  if c = '"' then ['\\', '"'] else if c = '\\' then ['\\', '\\']
  else if c = '\n' then ['\\', 'n'] else if c = '\t' then ['\\', 't']
  else if c = '\r' then ['\\', 'r'] else if c = '\x08' then ['\\', 'b']
  else if c = '\x0c' then ['\\', 'f']
  else if c.toNat < 32 then
    ['\\', 'u', '0', '0', hexChar (c.toNat / 16), hexChar (c.toNat % 16)]
  else [c]

/-- Escape a whole string body. -/
def escString (s : Chars) : Chars := s.flatMap escChar

/-- Indentation padding at a nesting level. -/
def pad (ind lvl : Nat) : Chars := List.replicate (ind * lvl) ' '

mutual
/-- `json.dumps` with an `indent` width, at a given nesting level. -/
def dumpsVal (ind : Nat) : Nat → JValue → Chars
  | _, .null => "null".toList
  | _, .jbool true => "true".toList
  | _, .jbool false => "false".toList
  | _, .jnum n => intToChars n
  | _, .jstr s => ('"' :: escString s) ++ ['"']
  | _, .jarr .nil => ['[', ']']
  | lvl, .jarr (.cons x xs) =>
    ('[' :: '\n' ::
      (pad ind (lvl + 1) ++ dumpsVal ind (lvl + 1) x ++ dumpsArr ind (lvl + 1) xs ++
        '\n' :: pad ind lvl)) ++ [']']
  | _, .jobj .fnil => ['\x7b', '\x7d']
  | lvl, .jobj (.fcons k v tl) =>
    ('\x7b' :: '\n' ::
      (pad ind (lvl + 1) ++ ('"' :: (escString k ++ '"' :: ':' :: ' ' ::
        dumpsVal ind (lvl + 1) v)) ++ dumpsFields ind (lvl + 1) tl ++
        '\n' :: pad ind lvl)) ++ ['\x7d']

/-- Remaining array items, each preceded by `,\n` and padding. -/
def dumpsArr (ind : Nat) : Nat → JList → Chars
  | _, .nil => []
  | lvl, .cons x xs =>
    ',' :: '\n' :: (pad ind lvl ++ dumpsVal ind lvl x ++ dumpsArr ind lvl xs)

/-- Remaining object fields, each preceded by `,\n` and padding. -/
def dumpsFields (ind : Nat) : Nat → JFields → Chars
  | _, .fnil => []
  | lvl, .fcons k v tl =>
    ',' :: '\n' :: (pad ind lvl ++ ('"' :: (escString k ++ '"' :: ':' :: ' ' ::
      dumpsVal ind lvl v)) ++ dumpsFields ind lvl tl)
end

/-- Top-level serialization, `json.dumps(data, indent=ind, ensure_ascii=False)`. -/
def dumps (v : JValue) (ind : Nat) : Chars := dumpsVal ind 0 v

/-- Python `str.splitlines` restricted to the `\n`, `\r`, `\r\n` terminators,
with or without keeping the line endings. -/
def splitlinesGo (keep : Bool) (acc : Chars) : Chars → List Chars
  | [] => if acc = [] then [] else [acc.reverse]
  | c :: rest =>
    if c = '\n' then (acc.reverse ++ if keep then ['\n'] else []) :: splitlinesGo keep [] rest
    else if c = '\r' then
      match rest with
      | '\n' :: rest' =>
        (acc.reverse ++ if keep then ['\r', '\n'] else []) :: splitlinesGo keep [] rest'
      | [] => [acc.reverse ++ if keep then ['\r'] else []]
      | c2 :: rest2 =>
        (acc.reverse ++ if keep then ['\r'] else []) :: splitlinesGo keep [] (c2 :: rest2)
    else splitlinesGo keep (c :: acc) rest

/-- `text.splitlines()`. -/
def pySplitlines (l : Chars) : List Chars := splitlinesGo false [] l

/-- `text.splitlines(True)` (line endings kept). -/
def pySplitlinesKeep (l : Chars) : List Chars := splitlinesGo true [] l

/-- The loop of `detect_indent` (lines 79-87): skip blank lines; at the first
non-blank line return the width of its leading space run or tab run, or the
default `2` if it is unindented; `2` if every line is blank. -/
def detectIndentGo : List Chars → Nat
  | [] => 2
  | line :: rest =>
    if line.all isPySpace then detectIndentGo rest
    else
      match line with
      | [] => 2
      | c :: _ =>
        if c = ' ' then (line.takeWhile (fun x => x = ' ')).length
        else if c = '\t' then (line.takeWhile (fun x => x = '\t')).length
        else 2

/-- `detect_indent` of `bin/fedit_structured_json.py`. -/
def detect_indent (text : Chars) : Nat := detectIndentGo (pySplitlines text)

/-- Does the text end with a newline character? -/
def endsNl (l : Chars) : Bool := l.getLast? = some '\n'

/-- The serialization step of `main` (lines 179-187): dump with the detected
indent and re-append a final newline when the original ended with one. -/
def jsonNewText (data : JValue) (orig : Chars) : Chars :=
  let newText := dumps data (detect_indent orig)
  if endsNl orig ∧ endsNl newText = false then newText ++ ['\n'] else newText

/-- `main` of `bin/fedit_structured_json.py` end to end.  `parsed` is the
result of `json.loads(original_text)` and `replParsed` the result of
`json.loads(replace_str)` (the JSON parser is an external library call,
modelled as an oracle input); `none` models a `JSONDecodeError`.  Every
failure path calls `sys.exit(1)`. -/
def jsonMain (structured : Bool) (pathStr replStr : Chars)
    (target : Option Chars) (parsed : Option JValue) (replParsed : Option JValue)
    (wr : WriteOutcome) : CmdResult :=
  if structured = false then
    match target with
    | none => ⟨1, none, false⟩
    | some content =>
      let newContent := pyReplace content pathStr replStr
      if newContent = content then ⟨1, some content, false⟩
      else
        match wr with
        | .ok => ⟨0, some newContent, false⟩
        | .fail => ⟨1, some content, false⟩
  else
    match target with
    | none => ⟨1, none, false⟩
    | some orig =>
      match parsed with
      | none => ⟨1, some orig, false⟩
      | some data =>
        match parse_path pathStr with
        | .error _ => ⟨1, some orig, false⟩
        | .ok steps =>
          match navigate_parent data steps with
          | .error _ => ⟨1, some orig, false⟩
          | .ok _ =>
            match replParsed with
            | none => ⟨1, some orig, false⟩
            | some newV =>
              match applyEdit data steps newV with
              | .error _ => ⟨1, some orig, false⟩
              | .ok data' =>
                match wr with
                | .ok => ⟨0, some (jsonNewText data' orig), false⟩
                | .fail => ⟨1, some orig, false⟩

/-! ### `bin/fedit_structured_yaml_toml.py`

The line scanners parse each line with the regexes
`^(\s*)([A-Za-z0-9_-]+)\s*:\s*(.*)?$` (YAML) and
`^\s*\[([^\]]+)\]\s*$`, `^\s*([A-Za-z0-9_-]+)\s*=\s*(.*)$` (TOML).
For these patterns the greedy engine is deterministic (each `\s*` consumes
its maximal whitespace run, `(.*)` stops before a final newline), which is
how the parsers below are written. -/

/-- A character of the `[A-Za-z0-9_-]` key class. -/
def isKeyChar (c : Char) : Bool :=
  ('A' ≤ c ∧ c ≤ 'Z') ∨ ('a' ≤ c ∧ c ≤ 'z') ∨ ('0' ≤ c ∧ c ≤ '9') ∨ c = '_' ∨ c = '-'

/-- Python `str.split(sep)` accumulator loop. -/
def pySplitGo (sep : Char) (acc : Chars) : Chars → List Chars
  | [] => [acc.reverse]
  | c :: rest =>
    if c = sep then acc.reverse :: pySplitGo sep [] rest
    else pySplitGo sep (c :: acc) rest

/-- Python `s.split(sep)` for a one-character separator. -/
def pySplit (sep : Char) (l : Chars) : List Chars := pySplitGo sep [] l

/-- Match one line against `^(\s*)([A-Za-z0-9_-]+)\s*:\s*(.*)?$`, returning
the indent width, the key and the value rest (`m.group(1,2,3)`). -/
def yamlLineParse (line : Chars) : Option (Nat × Chars × Chars) :=
  let ws1 := line.takeWhile isPySpace
  let rest1 := line.drop ws1.length
  let key := rest1.takeWhile isKeyChar
  if key = [] then none
  else
    let rest2 := (rest1.drop key.length).dropWhile isPySpace
    match rest2 with
    | ':' :: rest3 =>
      let rem := rest3.dropWhile isPySpace
      some (ws1.length, key, if endsNl rem then rem.dropLast else rem)
    | _ => none

/-- Trailing inline-comment fragment kept by the replacement
(`rest.partition("#")` followed by `if comment:`). -/
def commentPart (value : Chars) : Chars :=
  match splitAtChar '#' value with
  | some (_, comment) => if comment = [] then [] else ' ' :: '#' :: comment
  | none => []

/-- The replacement line built by `replace_yaml_path` (indent re-rendered as
spaces, inline comment preserved, newline always appended). -/
def mkYamlLine (indent : Nat) (key repl value : Chars) : Chars :=
  List.replicate indent ' ' ++ key ++ (':' :: ' ' :: (repl ++ commentPart value ++ ['\n']))

/-- `replace_yaml_path` (lines 33-67): scan lines tracking an
indentation-derived path stack (stored here top-first); replace the value of
the first line whose path equals the requested tokens and whose value rest
is non-empty.  `none` models the `ValueError` raised when nothing matched. -/
def yamlGo (tokens : List Chars) (repl : Chars) :
    List (Chars × Nat) → List Chars → Option (List Chars)
  | _, [] => none
  | stack, raw :: rest =>
    match yamlLineParse raw with
    | none => (yamlGo tokens repl stack rest).map (fun ls => raw :: ls)
    | some (indent, key, value) =>
      let stack' := (key, indent) :: stack.dropWhile (fun e => indent ≤ e.2)
      let path := (stack'.map Prod.fst).reverse
      if path = tokens ∧ value ≠ [] then
        some (mkYamlLine indent key repl value :: rest)
      else (yamlGo tokens repl stack' rest).map (fun ls => raw :: ls)

/-- Match one line against the table header `^\s*\[([^\]]+)\]\s*$`. -/
def tomlHeaderParse (line : Chars) : Option Chars :=
  match line.dropWhile isPySpace with
  | '[' :: rest2 =>
    let content := rest2.takeWhile (fun c => c ≠ ']')
    if content = [] then none
    else
      match rest2.drop content.length with
      | ']' :: rem => if rem.all isPySpace then some content else none
      | _ => none
  | _ => none

/-- Match one line against `^\s*([A-Za-z0-9_-]+)\s*=\s*(.*)$`. -/
def tomlKvParse (line : Chars) : Option (Chars × Chars) :=
  let rest1 := line.dropWhile isPySpace
  let key := rest1.takeWhile isKeyChar
  if key = [] then none
  else
    match (rest1.drop key.length).dropWhile isPySpace with
    | '=' :: rest3 =>
      let rem := rest3.dropWhile isPySpace
      some (key, if endsNl rem then rem.dropLast else rem)
    | _ => none

/-- `replace_toml_path` (lines 70-102): track the current `[table]` header,
replace the value of the first key line whose table-qualified path equals
the requested tokens (original leading whitespace preserved). -/
def tomlGo (tokens : List Chars) (repl : Chars) :
    List Chars → List Chars → Option (List Chars)
  | _, [] => none
  | table, raw :: rest =>
    match tomlHeaderParse raw with
    | some content =>
      let tp := stripWs content
      let table' := if tp = [] then [] else pySplit '.' tp
      (tomlGo tokens repl table' rest).map (fun ls => raw :: ls)
    | none =>
      match tomlKvParse raw with
      | some kv =>
        if table ++ [kv.1] = tokens then
          some ((raw.takeWhile isPySpace ++
            (kv.1 ++ (' ' :: '=' :: ' ' :: (repl ++ commentPart kv.2 ++ ['\n'])))) :: rest)
        else (tomlGo tokens repl table rest).map (fun ls => raw :: ls)
      | none => (tomlGo tokens repl table rest).map (fun ls => raw :: ls)

/-- `detect_format` (lines 22-30): explicit `--format` lowercased, else by
file suffix, defaulting to YAML. -/
def detect_format (argsFormat : Option Chars) (suffix : Chars) : Chars :=
  match argsFormat with
  | some f => f.map Char.toLower
  | none =>
    if suffix = ".yml".toList ∨ suffix = ".yaml".toList then "yaml".toList
    else if suffix = ".toml".toList then "toml".toList
    else "yaml".toList

/-- `main` of `bin/fedit_structured_yaml_toml.py` end to end.  The write is
a direct `Path.write_text` (open-truncate-write, no temporary file):
`wf = some k` models a failure after `k` characters reached the disk, which
leaves the target truncated to that prefix and the interpreter exiting with
the unhandled-exception code 1. -/
def yamlTomlMain (argsFormat : Option Chars) (suffix : Chars) (pathStr repl : Chars)
    (target : Option Chars) (wf : Option Nat) : CmdResult :=
  match target with
  | none => ⟨2, none, false⟩
  | some content =>
    let fmt := detect_format argsFormat suffix
    let tokens := if pathStr = [] then [] else pySplit '.' pathStr
    if tokens = [] then ⟨2, some content, false⟩
    else
      let lines := pySplitlinesKeep content
      let res :=
        if fmt = "yaml".toList then some (yamlGo tokens repl [] lines)
        else if fmt = "toml".toList then some (tomlGo tokens repl [] lines)
        else none
      match res with
      | none => ⟨2, some content, false⟩
      | some none => ⟨1, some content, false⟩
      | some (some lines') =>
        let out := lines'.flatten
        match wf with
        | none => ⟨0, some out, false⟩
        | some k => ⟨1, some (out.take k), false⟩

/-- Modelled from the spec: "indentation inferred from the original
document's first indented line (default of two spaces if none found)" —
the leading-whitespace width of the first line that has any leading
whitespace.  Stated only to compare the code's `detect_indent` against the
claim's wording. -/
def specFirstIndentedWidth : List Chars → Option Nat
  | [] => none
  | line :: rest =>
    if (line.takeWhile isPySpace).length ≠ 0 then some (line.takeWhile isPySpace).length
    else specFirstIndentedWidth rest

/-- Modelled from the spec: the first indented line's width over the
document's lines. -/
def specIndentOfText (text : Chars) : Option Nat :=
  specFirstIndentedWidth (pySplitlines text)

/-! ### Theorems -/

theorem length_pos_of_ne_nil {s : Chars} (hs : s ≠ []) : 0 < s.length := by
  cases s with
  | nil => exact absurd rfl hs
  | cons a b => simp

theorem drop_of_prefix {s t : Chars} (h : s <+: t) :
    t = s ++ t.drop s.length := by
  obtain ⟨u, rfl⟩ := h
  rw [List.drop_left]

theorem occursAt_zero (t s : Chars) : occursAt t s 0 ↔ s <+: t := by
  simp [occursAt]

theorem occursAt_cons_succ (c : Char) (t s : Chars) (i : Nat) :
    occursAt (c :: t) s (i + 1) ↔ occursAt t s i := by
  simp [occursAt]

theorem firstOcc_some_le {s t : Chars} {i : Nat} (h : firstOcc s t = some i) :
    i ≤ t.length := by
  induction t generalizing i with
  | nil =>
    unfold firstOcc at h
    split at h
    · simp_all
    · simp_all
  | cons c t ih =>
    unfold firstOcc at h
    split at h
    · obtain rfl : (0 : Nat) = i := by simpa using h
      simp
    · cases hf : firstOcc s t with
      | none => rw [hf] at h; simp at h
      | some j =>
        rw [hf] at h
        obtain rfl : j + 1 = i := by simpa using h
        have := ih hf
        simp only [List.length_cons]
        omega

theorem firstOcc_some_occurs {s t : Chars} {i : Nat} (h : firstOcc s t = some i) :
    occursAt t s i := by
  induction t generalizing i with
  | nil =>
    unfold firstOcc at h
    split at h
    · obtain rfl : (0 : Nat) = i := by simpa using h
      simpa [occursAt] using ‹s <+: ([] : Chars)›
    · simp_all
  | cons c t ih =>
    unfold firstOcc at h
    split at h
    · obtain rfl : (0 : Nat) = i := by simpa using h
      simpa [occursAt] using ‹s <+: (c :: t)›
    · cases hf : firstOcc s t with
      | none => rw [hf] at h; simp at h
      | some j =>
        rw [hf] at h
        obtain rfl : j + 1 = i := by simpa using h
        exact (occursAt_cons_succ c t s j).2 (ih hf)

theorem firstOcc_some_min {s t : Chars} {i : Nat} (h : firstOcc s t = some i) :
    ∀ j < i, ¬ occursAt t s j := by
  induction t generalizing i with
  | nil =>
    unfold firstOcc at h
    split at h
    · obtain rfl : (0 : Nat) = i := by simpa using h
      intro j hj; omega
    · simp_all
  | cons c t ih =>
    unfold firstOcc at h
    split at h
    · obtain rfl : (0 : Nat) = i := by simpa using h
      intro j hj; omega
    · cases hf : firstOcc s t with
      | none => rw [hf] at h; simp at h
      | some k =>
        rw [hf] at h
        obtain rfl : k + 1 = i := by simpa using h
        intro j hj
        cases j with
        | zero =>
          intro hocc
          exact ‹¬ s <+: (c :: t)› ((occursAt_zero _ _).1 hocc)
        | succ j' =>
          rw [occursAt_cons_succ]
          exact ih hf j' (by omega)

theorem firstOcc_none {s t : Chars} (h : firstOcc s t = none) :
    ∀ j, ¬ occursAt t s j := by
  induction t with
  | nil =>
    unfold firstOcc at h
    split at h
    · simp at h
    · intro j hocc
      exact ‹¬ s <+: ([] : Chars)› (by simpa [occursAt] using hocc)
  | cons c t ih =>
    unfold firstOcc at h
    split at h
    · simp at h
    · cases hf : firstOcc s t with
      | some k => rw [hf] at h; simp at h
      | none =>
        intro j
        cases j with
        | zero =>
          intro hocc
          exact ‹¬ s <+: (c :: t)› ((occursAt_zero _ _).1 hocc)
        | succ j' => rw [occursAt_cons_succ]; exact ih hf j'

theorem firstOcc_isSome_of_occurs {s t : Chars} {j : Nat}
    (h : occursAt t s j) : firstOcc s t ≠ none := by
  intro hn
  exact firstOcc_none hn j h

theorem occursAt_bound {t s : Chars} {i : Nat} (hs : s ≠ [])
    (h : occursAt t s i) : i + s.length ≤ t.length := by
  unfold occursAt at h
  have hle := h.length_le
  rw [List.length_drop] at hle
  rcases Nat.lt_or_ge i t.length with hlt | hge
  · omega
  · exfalso
    rw [List.drop_eq_nil_of_le hge] at h
    exact hs (List.prefix_nil.1 h)

theorem occursAt_drop (t s : Chars) (a j : Nat) :
    occursAt (t.drop a) s j ↔ occursAt t s (a + j) := by
  simp [occursAt, List.drop_drop, Nat.add_comm]

theorem countOccF_congr {s : Chars} :
    ∀ {f : Nat} {t : Chars} {f' : Nat}, t.length < f → t.length < f' →
      countOccF f t s = countOccF f' t s := by
  intro f
  induction f with
  | zero => intro t f' h; omega
  | succ f ih =>
    intro t f' h h'
    cases f' with
    | zero => omega
    | succ f' =>
      show countOccF (f + 1) t s = countOccF (f' + 1) t s
      unfold countOccF
      split
      case isTrue hp =>
        have hlen := hp.2.length_le
        have hslen := length_pos_of_ne_nil hp.1
        have h1 : (t.drop s.length).length < f := by
          rw [List.length_drop]; omega
        have h2 : (t.drop s.length).length < f' := by
          rw [List.length_drop]; omega
        rw [ih h1 h2]
      case isFalse =>
        cases t with
        | nil => rfl
        | cons c t' =>
          have h1 : t'.length < f := by simp at h; omega
          have h2 : t'.length < f' := by simp at h'; omega
          exact ih h1 h2

theorem countOcc_eq_pos {t s : Chars} (hs : s ≠ []) (hp : s <+: t) :
    countOcc t s = 1 + countOcc (t.drop s.length) s := by
  show countOccF (t.length + 1) t s = _
  unfold countOccF
  rw [if_pos ⟨hs, hp⟩]
  have hlen := hp.length_le
  have hslen := length_pos_of_ne_nil hs
  congr 1
  apply countOccF_congr <;> rw [List.length_drop] <;> omega

theorem countOcc_nil {s : Chars} (hs : s ≠ []) : countOcc [] s = 0 := by
  show countOccF 1 [] s = 0
  unfold countOccF
  rw [if_neg (by rintro ⟨-, hp⟩; exact hs (List.prefix_nil.1 hp))]

theorem countOcc_cons_neg {c : Char} {t s : Chars}
    (hp : ¬ s <+: (c :: t)) : countOcc (c :: t) s = countOcc t s := by
  show countOccF ((c :: t).length + 1) (c :: t) s = _
  unfold countOccF
  rw [if_neg (by rintro ⟨-, hp'⟩; exact hp hp')]
  apply countOccF_congr <;> simp

theorem countOcc_of_firstOcc_none {t s : Chars} (hs : s ≠ [])
    (h : firstOcc s t = none) : countOcc t s = 0 := by
  induction t with
  | nil => exact countOcc_nil hs
  | cons c t ih =>
    unfold firstOcc at h
    split at h
    · simp at h
    · cases hf : firstOcc s t with
      | some k => rw [hf] at h; simp at h
      | none =>
        rw [countOcc_cons_neg ‹¬ s <+: (c :: t)›]
        exact ih hf

theorem countOcc_of_firstOcc_some {t s : Chars} {i : Nat} (hs : s ≠ [])
    (h : firstOcc s t = some i) :
    countOcc t s = 1 + countOcc (t.drop (i + s.length)) s := by
  induction t generalizing i with
  | nil =>
    unfold firstOcc at h
    split at h
    · exact absurd (List.prefix_nil.1 ‹s <+: ([] : Chars)›) hs
    · simp at h
  | cons c t ih =>
    unfold firstOcc at h
    split at h
    · obtain rfl : (0 : Nat) = i := by simpa using h
      rw [countOcc_eq_pos hs ‹s <+: (c :: t)›]
      simp
    · cases hf : firstOcc s t with
      | none => rw [hf] at h; simp at h
      | some j =>
        rw [hf] at h
        obtain rfl : j + 1 = i := by simpa using h
        rw [countOcc_cons_neg ‹¬ s <+: (c :: t)›, ih hf]
        have hd : j + 1 + s.length = (j + s.length) + 1 := by omega
        rw [hd, List.drop_succ_cons]

theorem pyReplaceF_congr {s r : Chars} :
    ∀ {f : Nat} {t : Chars} {f' : Nat}, t.length < f → t.length < f' →
      pyReplaceF f t s r = pyReplaceF f' t s r := by
  intro f
  induction f with
  | zero => intro t f' h; omega
  | succ f ih =>
    intro t f' h h'
    cases f' with
    | zero => omega
    | succ f' =>
      show pyReplaceF (f + 1) t s r = pyReplaceF (f' + 1) t s r
      unfold pyReplaceF
      split
      · rfl
      · split
        case isTrue hs hp =>
          have hlen := hp.length_le
          have hslen := length_pos_of_ne_nil hs
          have h1 : (t.drop s.length).length < f := by
            rw [List.length_drop]; omega
          have h2 : (t.drop s.length).length < f' := by
            rw [List.length_drop]; omega
          rw [ih h1 h2]
        case isFalse =>
          cases t with
          | nil => rfl
          | cons c t' =>
            have h1 : t'.length < f := by simp at h; omega
            have h2 : t'.length < f' := by simp at h'; omega
            exact congrArg (c :: ·) (ih h1 h2)

theorem pyReplace_eq_pos {t s r : Chars} (hs : s ≠ []) (hp : s <+: t) :
    pyReplace t s r = r ++ pyReplace (t.drop s.length) s r := by
  show pyReplaceF (t.length + 1) t s r = _
  unfold pyReplaceF
  rw [if_neg hs, if_pos hp]
  have hlen := hp.length_le
  have hslen := length_pos_of_ne_nil hs
  congr 1
  apply pyReplaceF_congr <;> rw [List.length_drop] <;> omega

theorem pyReplace_nil {s r : Chars} (hs : s ≠ []) : pyReplace [] s r = [] := by
  show pyReplaceF 1 [] s r = []
  unfold pyReplaceF
  rw [if_neg hs, if_neg (fun hp => hs (List.prefix_nil.1 hp))]

theorem pyReplace_cons_neg {c : Char} {t s r : Chars} (hs : s ≠ [])
    (hp : ¬ s <+: (c :: t)) :
    pyReplace (c :: t) s r = c :: pyReplace t s r := by
  show pyReplaceF ((c :: t).length + 1) (c :: t) s r = _
  unfold pyReplaceF
  rw [if_neg hs, if_neg hp]
  rfl

theorem pyReplace_of_firstOcc_none {t s r : Chars} (hs : s ≠ [])
    (h : firstOcc s t = none) : pyReplace t s r = t := by
  induction t with
  | nil => exact pyReplace_nil hs
  | cons c t ih =>
    unfold firstOcc at h
    split at h
    · simp at h
    · cases hf : firstOcc s t with
      | some k => rw [hf] at h; simp at h
      | none =>
        rw [pyReplace_cons_neg hs ‹¬ s <+: (c :: t)›, ih hf]

theorem pyReplace_of_firstOcc_some {t s r : Chars} {i : Nat} (hs : s ≠ [])
    (h : firstOcc s t = some i) :
    pyReplace t s r = t.take i ++ r ++ pyReplace (t.drop (i + s.length)) s r := by
  induction t generalizing i with
  | nil =>
    unfold firstOcc at h
    split at h
    · exact absurd (List.prefix_nil.1 ‹s <+: ([] : Chars)›) hs
    · simp at h
  | cons c t ih =>
    unfold firstOcc at h
    split at h
    · obtain rfl : (0 : Nat) = i := by simpa using h
      rw [pyReplace_eq_pos hs ‹s <+: (c :: t)›]
      simp
    · cases hf : firstOcc s t with
      | none => rw [hf] at h; simp at h
      | some j =>
        rw [hf] at h
        obtain rfl : j + 1 = i := by simpa using h
        rw [pyReplace_cons_neg hs ‹¬ s <+: (c :: t)›, ih hf]
        have hd : j + 1 + s.length = (j + s.length) + 1 := by omega
        rw [hd, List.drop_succ_cons]
        simp

theorem findFrom_eq_none {t s : Chars} {start : Nat} (hst : start ≤ t.length)
    (h : firstOcc s (t.drop start) = none) : findFrom t s start = none := by
  simp [findFrom, hst, h]

theorem findFrom_eq_some {t s : Chars} {start j : Nat} (hst : start ≤ t.length)
    (h : firstOcc s (t.drop start) = some j) : findFrom t s start = some (j + start) := by
  simp [findFrom, hst, h]

theorem exactScanF_of_none {t s : Chars} {start : Nat} (f : Nat)
    (h : findFrom t s start = none) : exactScanF f t s start = [] := by
  cases f with
  | zero => rfl
  | succ f => unfold exactScanF; rw [h]

theorem exactScanF_of_some {t s : Chars} {start i : Nat} (f : Nat)
    (h : findFrom t s start = some i) :
    exactScanF (f + 1) t s start = (i, i + s.length) :: exactScanF f t s (i + s.length) := by
  show (match findFrom t s start with
      | none => []
      | some j => (j, j + s.length) :: exactScanF f t s (j + s.length)) = _
  rw [h]

/-- When the scan finds a span from cursor `start`, the span begins at or
after `start` and ends within the text. -/
theorem findFrom_some_facts {t s : Chars} {start i : Nat} (hs : s ≠ [])
    (h : findFrom t s start = some i) :
    start ≤ i ∧ occursAt t s i ∧ i + s.length ≤ t.length := by
  unfold findFrom at h
  split at h
  · cases hf : firstOcc s (t.drop start) with
    | none => rw [hf] at h; simp at h
    | some j =>
      rw [hf] at h
      obtain rfl : j + start = i := by simpa using h
      have hocc := firstOcc_some_occurs hf
      have hocc' : occursAt t s (start + j) := (occursAt_drop t s start j).1 hocc
      have hb := occursAt_bound hs hocc'
      refine ⟨by omega, by rwa [Nat.add_comm j start], by omega⟩
  · simp at h

/-- Core loop invariant: with enough fuel, the number of spans found from
cursor `start` is the greedy non-overlapping occurrence count of the suffix. -/
theorem exactScanF_length {t s : Chars} (hs : s ≠ []) :
    ∀ (f start : Nat), start ≤ t.length → t.length + 1 ≤ f + start →
      (exactScanF f t s start).length = countOcc (t.drop start) s := by
  intro f
  induction f with
  | zero => intro start h1 h2; omega
  | succ f ih =>
    intro start h1 h2
    cases hff : findFrom t s start with
    | none =>
      rw [exactScanF_of_none _ hff]
      unfold findFrom at hff
      rw [if_pos h1] at hff
      cases hfo : firstOcc s (t.drop start) with
      | none => rw [countOcc_of_firstOcc_none hs hfo]; rfl
      | some j => rw [hfo] at hff; simp at hff
    | some i =>
      rw [exactScanF_of_some _ hff]
      obtain ⟨hsi, hocc, hbound⟩ := findFrom_some_facts hs hff
      have hslen := length_pos_of_ne_nil hs
      have hj : firstOcc s (t.drop start) = some (i - start) := by
        unfold findFrom at hff
        rw [if_pos h1] at hff
        cases hfo : firstOcc s (t.drop start) with
        | none => rw [hfo] at hff; simp at hff
        | some j =>
          rw [hfo] at hff
          obtain rfl : j + start = i := by simpa using hff
          congr 1
          omega
      rw [countOcc_of_firstOcc_some hs hj]
      have hrw : (t.drop start).drop (i - start + s.length) = t.drop (i + s.length) := by
        rw [List.drop_drop]
        congr 1
        omega
      rw [hrw]
      simp only [List.length_cons]
      rw [ih (i + s.length) (by omega) (by omega)]
      omega

/-- Core loop invariant: with enough fuel, splicing the replacement into the
found spans agrees with Python `str.replace` on the suffix. -/
theorem exactScanF_splice {t s : Chars} (hs : s ≠ []) :
    ∀ (f start : Nat) (r : Chars), start ≤ t.length → t.length + 1 ≤ f + start →
      spliceFrom t start (exactScanF f t s start) r = pyReplace (t.drop start) s r := by
  intro f
  induction f with
  | zero => intro start r h1 h2; omega
  | succ f ih =>
    intro start r h1 h2
    cases hff : findFrom t s start with
    | none =>
      rw [exactScanF_of_none _ hff]
      unfold findFrom at hff
      rw [if_pos h1] at hff
      cases hfo : firstOcc s (t.drop start) with
      | none => rw [show spliceFrom t start [] r = t.drop start from rfl,
          pyReplace_of_firstOcc_none hs hfo]
      | some j => rw [hfo] at hff; simp at hff
    | some i =>
      rw [exactScanF_of_some _ hff]
      obtain ⟨hsi, hocc, hbound⟩ := findFrom_some_facts hs hff
      have hslen := length_pos_of_ne_nil hs
      have hj : firstOcc s (t.drop start) = some (i - start) := by
        unfold findFrom at hff
        rw [if_pos h1] at hff
        cases hfo : firstOcc s (t.drop start) with
        | none => rw [hfo] at hff; simp at hff
        | some j =>
          rw [hfo] at hff
          obtain rfl : j + start = i := by simpa using hff
          congr 1
          omega
      rw [pyReplace_of_firstOcc_some hs hj]
      show (t.drop start).take (i - start) ++ r ++ spliceFrom t (i + s.length) (exactScanF f t s (i + s.length)) r = _
      rw [ih (i + s.length) r (by omega) (by omega)]
      have hrw : (t.drop start).drop (i - start + s.length) = t.drop (i + s.length) := by
        rw [List.drop_drop]
        congr 1
        omega
      rw [hrw]

/-- Every span produced by the scan starts at or after the cursor, has width
equal to the search length, and consecutive spans do not overlap. -/
theorem exactScanF_sorted (t s : Chars) :
    ∀ (f start : Nat),
      (∀ p ∈ exactScanF f t s start, start ≤ p.1 ∧ p.2 = p.1 + s.length) ∧
      (exactScanF f t s start).Chain' (fun a b => a.2 ≤ b.1) := by
  intro f
  induction f with
  | zero => intro start; exact ⟨by intro p hp; simp [exactScanF] at hp, by simp [exactScanF]⟩
  | succ f ih =>
    intro start
    cases hff : findFrom t s start with
    | none =>
      rw [exactScanF_of_none _ hff]
      exact ⟨by intro p hp; simp at hp, by simp⟩
    | some i =>
      rw [exactScanF_of_some _ hff]
      have hsi : start ≤ i := by
        unfold findFrom at hff
        split at hff
        · cases hfo : firstOcc s (t.drop start) with
          | none => rw [hfo] at hff; simp at hff
          | some j =>
            rw [hfo] at hff
            obtain rfl : j + start = i := by simpa using hff
            omega
        · simp at hff
      obtain ⟨ihmem, ihchain⟩ := ih (i + s.length)
      constructor
      · intro p hp
        rcases List.mem_cons.1 hp with rfl | hp
        · exact ⟨hsi, rfl⟩
        · have := ihmem p hp
          exact ⟨by omega, this.2⟩
      · rw [List.chain'_cons']
        refine ⟨?_, ihchain⟩
        intro b hb
        have hb' : b ∈ exactScanF f t s (i + s.length) := List.mem_of_mem_head? hb
        have := ihmem b hb'
        simpa using this.1

/-- With sufficient fuel the scan result is fuel-independent: the loop
terminates for every non-empty search string. -/
theorem exactScanF_stable {t s : Chars} (hs : s ≠ []) :
    ∀ (f f' start : Nat), start ≤ t.length →
      t.length + 1 ≤ f + start → t.length + 1 ≤ f' + start →
      exactScanF f t s start = exactScanF f' t s start := by
  intro f
  induction f with
  | zero => intro f' start h1 h2; omega
  | succ f ih =>
    intro f' start h1 h2 h3
    cases f' with
    | zero => omega
    | succ f' =>
      cases hff : findFrom t s start with
      | none => rw [exactScanF_of_none _ hff, exactScanF_of_none _ hff]
      | some i =>
        rw [exactScanF_of_some _ hff, exactScanF_of_some _ hff]
        obtain ⟨hsi, hocc, hbound⟩ := findFrom_some_facts hs hff
        have hslen := length_pos_of_ne_nil hs
        rw [ih f' (i + s.length) (by omega) (by omega) (by omega)]

theorem countOcc_singleton_eq_count (c : Char) (t : Chars) :
    countOcc t [c] = t.count c := by
  induction t with
  | nil => simp [countOcc_nil (by simp : ([c] : Chars) ≠ [])]
  | cons d t ih =>
    by_cases hdc : c = d
    · subst hdc
      rw [countOcc_eq_pos (by simp) (by simp)]
      simp only [List.length_cons, List.length_nil, Nat.zero_add, List.drop_succ_cons,
        List.drop_zero]
      rw [ih, List.count_cons_self]
      omega
    · rw [countOcc_cons_neg (by
        intro hp
        obtain ⟨u, hu⟩ := hp
        simp only [List.cons_append, List.nil_append, List.cons.injEq] at hu
        exact hdc hu.1)]
      rw [ih, List.count_cons_of_ne hdc]

theorem countOcc_crlf_le_count_lf (t : Chars) :
    countOcc t ['\r', '\n'] ≤ t.count '\n' := by
  have hgen : ∀ n (u : Chars), u.length ≤ n → countOcc u ['\r', '\n'] ≤ u.count '\n' := by
    intro n
    induction n with
    | zero =>
      intro u hu
      obtain rfl : u = [] := List.eq_nil_of_length_eq_zero (by omega)
      simp [countOcc_nil (by simp : (['\r', '\n'] : Chars) ≠ [])]
    | succ n ih =>
      intro u hu
      by_cases hp : (['\r', '\n'] : Chars) <+: u
      · obtain ⟨v, rfl⟩ := hp
        rw [countOcc_eq_pos (by simp) ⟨v, rfl⟩]
        have hv := ih v (by simp at hu; omega)
        have hdrop : (['\r', '\n'] ++ v : Chars).drop 2 = v := rfl
        rw [show ((['\r', '\n'] : Chars).length) = 2 from rfl, hdrop]
        simp only [List.cons_append, List.nil_append]
        rw [List.count_cons, List.count_cons]
        simp
        omega
      · cases u with
        | nil => simp [countOcc_nil (by simp : (['\r', '\n'] : Chars) ≠ [])]
        | cons c u' =>
          rw [countOcc_cons_neg hp]
          have := ih u' (by simp at hu; omega)
          rw [List.count_cons]
          omega
  exact hgen t.length t le_rfl

theorem pyReplace_no_head {t : Chars} {ph : Char} {p' r : Chars}
    (h : ∀ c ∈ t, c ≠ ph) : pyReplace t (ph :: p') r = t := by
  induction t with
  | nil => exact pyReplace_nil (by simp)
  | cons c t ih =>
    have hc : c ≠ ph := h c (by simp)
    rw [pyReplace_cons_neg (by simp) (by
      intro hp
      obtain ⟨u, hu⟩ := hp
      simp only [List.cons_append, List.cons.injEq] at hu
      exact hc hu.1.symm)]
    rw [ih (fun c hc' => h c (by simp [hc']))]

theorem pyReplace_seg_step {seg : Chars} {ph : Char} {p' rest r : Chars}
    (h : ∀ c ∈ seg, c ≠ ph) :
    pyReplace (seg ++ (ph :: p') ++ rest) (ph :: p') r =
      seg ++ r ++ pyReplace rest (ph :: p') r := by
  induction seg with
  | nil =>
    simp only [List.nil_append]
    rw [pyReplace_eq_pos (by simp) ⟨rest, rfl⟩, List.drop_left]
  | cons c seg ih =>
    have hc : c ≠ ph := h c (by simp)
    rw [show (c :: seg) ++ (ph :: p') ++ rest = c :: (seg ++ (ph :: p') ++ rest) by simp,
      pyReplace_cons_neg (by simp) (by
        intro hp
        obtain ⟨u, hu⟩ := hp
        simp only [List.cons_append, List.cons.injEq] at hu
        exact hc hu.1.symm)]
    rw [ih (fun c hc' => h c (by simp [hc']))]
    simp

/-- Replacing the separator pattern in a join of clean segments substitutes it
everywhere, and nowhere else. -/
theorem pyReplace_joinSep {ph : Char} {p' r : Chars} (segs : List Chars)
    (h : ∀ seg ∈ segs, ∀ c ∈ seg, c ≠ ph) :
    pyReplace (joinSep (ph :: p') segs) (ph :: p') r = joinSep r segs := by
  induction segs with
  | nil => exact pyReplace_nil (by simp)
  | cons x segs ih =>
    cases segs with
    | nil =>
      show pyReplace x (ph :: p') r = x
      exact pyReplace_no_head (h x (by simp))
    | cons y rest =>
      show pyReplace (x ++ (ph :: p') ++ joinSep (ph :: p') (y :: rest)) (ph :: p') r = _
      rw [pyReplace_seg_step (h x (by simp))]
      rw [ih (fun seg hseg => h seg (by simp [List.mem_cons] at hseg ⊢; tauto))]
      rfl

theorem buildWsGo_eq_map (b : Bool) (s : Chars) :
    buildWsGo b s = (collapseGo b s).map tokOf := by
  induction s generalizing b with
  | nil => rfl
  | cons c rest ih =>
    unfold buildWsGo collapseGo
    by_cases hc : isPySpace c
    · rw [if_pos hc, if_pos hc]
      cases b <;> simp [ih, tokOf]
    · rw [if_neg hc, if_neg hc]
      have hcsp : c ≠ ' ' := by
        intro h; subst h; simp [isPySpace] at hc
      simp [ih, tokOf, hcsp]

theorem collapseGo_mem (b : Bool) (u : Chars) :
    ∀ c ∈ collapseGo b u, c = ' ' ∨ isPySpace c = false := by
  induction u generalizing b with
  | nil => simp [collapseGo]
  | cons d rest ih =>
    unfold collapseGo
    by_cases hd : isPySpace d
    · rw [if_pos hd]
      intro c hc
      cases b with
      | true => exact ih true c (by simpa using hc)
      | false =>
        rcases (by simpa using hc : c = ' ' ∨ c ∈ collapseGo true rest) with h | h
        · left; exact h
        · exact ih true c h
    · rw [if_neg hd]
      intro c hc
      rcases List.mem_cons.1 hc with rfl | h
      · right; simpa using hd
      · exact ih false c h

theorem collapseGo_true_head (u : Chars) :
    ∀ c, (collapseGo true u).head? = some c → isPySpace c = false := by
  induction u with
  | nil => intro c h; simp [collapseGo] at h
  | cons d rest ih =>
    intro c h
    unfold collapseGo at h
    by_cases hd : isPySpace d
    · rw [if_pos hd] at h
      exact ih c (by simpa using h)
    · rw [if_neg hd] at h
      simp only [List.head?_cons] at h
      obtain rfl : d = c := by simpa using h
      simpa using hd

theorem collapseGo_chain (b : Bool) (u : Chars) :
    (collapseGo b u).Chain' (fun a c => a = ' ' → c ≠ ' ') := by
  induction u generalizing b with
  | nil => simp [collapseGo]
  | cons d rest ih =>
    unfold collapseGo
    by_cases hd : isPySpace d
    · rw [if_pos hd]
      cases b with
      | true => simpa using ih true
      | false =>
        rw [if_neg Bool.false_ne_true]
        simp only [List.singleton_append]
        rw [List.chain'_cons']
        refine ⟨?_, ih true⟩
        intro c hc _
        intro hcsp
        have := collapseGo_true_head rest c hc
        rw [hcsp] at this
        simp [isPySpace] at this
    · rw [if_neg hd]
      rw [List.chain'_cons']
      refine ⟨?_, ih false⟩
      intro c _ hd'
      exfalso
      apply absurd hd
      simp [hd', isPySpace]

theorem collapseGo_true_eq (u : Chars) :
    collapseGo true u = collapseWs (u.dropWhile isPySpace) := by
  induction u with
  | nil => rfl
  | cons d rest ih =>
    unfold collapseGo
    by_cases hd : isPySpace d
    · rw [if_pos hd]
      simpa [List.dropWhile_cons, hd] using ih
    · rw [if_neg hd]
      simp [List.dropWhile_cons, hd, collapseWs, collapseGo, if_neg hd]

theorem collapseWs_nil_iff (u : Chars) : collapseWs u = [] ↔ u = [] := by
  constructor
  · intro h
    cases u with
    | nil => rfl
    | cons d rest =>
      exfalso
      unfold collapseWs collapseGo at h
      by_cases hd : isPySpace d
      · rw [if_pos hd] at h; simp at h
      · rw [if_neg hd] at h; simp at h
  · rintro rfl; rfl

theorem dropWhile_eq_drop_takeWhile (p : Char → Bool) (u : Chars) :
    u.dropWhile p = u.drop (u.takeWhile p).length := by
  induction u with
  | nil => rfl
  | cons d rest ih =>
    by_cases hd : p d
    · simp [List.dropWhile_cons, List.takeWhile_cons, hd, ih]
    · simp [List.dropWhile_cons, List.takeWhile_cons, hd]

theorem collapseWs_ws_run {u : Chars} (h : (u.takeWhile isPySpace).length ≠ 0) :
    collapseWs u = ' ' :: collapseWs (u.drop (u.takeWhile isPySpace).length) := by
  cases u with
  | nil => simp at h
  | cons d rest =>
    have hd : isPySpace d = true := by
      by_contra hd'
      rw [List.takeWhile_cons_of_neg (by simpa using hd')] at h
      simp at h
    show collapseGo false (d :: rest) = _
    unfold collapseGo
    rw [if_pos hd]
    simp only [if_neg (Bool.false_ne_true), List.singleton_append, List.cons.injEq, true_and]
    rw [collapseGo_true_eq]
    rw [← dropWhile_eq_drop_takeWhile]
    simp [List.dropWhile_cons, hd]

theorem collapseWs_cons_nonws {d : Char} {rest : Chars} (hd : isPySpace d = false) :
    collapseWs (d :: rest) = d :: collapseWs rest := by
  show collapseGo false (d :: rest) = _
  unfold collapseGo
  rw [if_neg (by simp [hd])]
  rfl

/-- Full-match characterization of the compiled whitespace pattern, stated on
collapsed pattern strings. -/
theorem matchToks_full_iff : ∀ (w : Chars),
    (∀ c ∈ w, c = ' ' ∨ isPySpace c = false) →
    w.Chain' (fun a c => a = ' ' → c ≠ ' ') →
    ∀ (u : Chars), matchToks (w.map tokOf) u = some u.length ↔ collapseWs u = w := by
  intro w
  induction w with
  | nil =>
    intro _ _ u
    show (some 0 = some u.length) ↔ _
    rw [collapseWs_nil_iff]
    constructor
    · intro h
      exact List.eq_nil_of_length_eq_zero (by simpa using h.symm)
    · rintro rfl; rfl
  | cons a w ih =>
    intro hmem hchain u
    have hw : ∀ c ∈ w, c = ' ' ∨ isPySpace c = false := fun c hc => hmem c (by simp [hc])
    have hwchain : w.Chain' (fun a c => a = ' ' → c ≠ ' ') := (List.chain'_cons'.1 hchain).2
    by_cases ha : a = ' '
    · subst ha
      show matchToks (Tok.ws :: w.map tokOf) u = some u.length ↔ _
      unfold matchToks
      set run := (u.takeWhile isPySpace).length with hrun
      by_cases hr : run = 0
      · rw [if_pos hr]
        constructor
        · intro h; simp at h
        · intro h
          exfalso
          cases u with
          | nil =>
            rw [show collapseWs [] = [] from rfl] at h
            simp at h
          | cons d rest =>
            have hd : isPySpace d = false := by
              by_contra hd'
              rw [hrun, List.takeWhile_cons_of_pos (by simpa using hd')] at hr
              simp at hr
            rw [collapseWs_cons_nonws hd] at h
            have : d = ' ' := by
              have := List.cons.injEq d (collapseWs rest) ' ' w
              rw [this] at h
              exact h.1
            rw [this] at hd
            simp [isPySpace] at hd
      · rw [if_neg hr]
        have hrle : run ≤ u.length := by
          rw [hrun]
          exact (List.takeWhile_prefix _).length_le
        have hdroplen : (u.drop run).length = u.length - run := by simp
        constructor
        · intro h
          rcases hmo : matchToks (w.map tokOf) (u.drop run) with _ | m
          · rw [hmo] at h; simp at h
          · rw [hmo] at h
            have hmr : m + run = u.length := by simpa using h
            have hm' : m = (u.drop run).length := by omega
            rw [hm'] at hmo
            have := (ih hw hwchain (u.drop run)).1 hmo
            rw [collapseWs_ws_run (by rw [← hrun]; exact hr), ← hrun, this]
        · intro h
          rw [collapseWs_ws_run (by rw [← hrun]; exact hr), ← hrun] at h
          have h2 : collapseWs (u.drop run) = w := by
            have := List.cons.injEq ' ' (collapseWs (u.drop run)) ' ' w
            rw [this] at h
            exact h.2
          have := (ih hw hwchain (u.drop run)).2 h2
          rw [this]
          show some ((u.drop run).length + run) = some u.length
          exact congrArg some (by simp only [List.length_drop]; omega)
    · have hansp : isPySpace a = false := by
        rcases hmem a (by simp) with h | h
        · exact absurd h ha
        · exact h
      have htok : tokOf a = Tok.lit a := by simp [tokOf, ha]
      rw [List.map_cons, htok]
      unfold matchToks
      cases u with
      | nil =>
        show (none : Option Nat) = some ([] : Chars).length ↔ _
        constructor
        · intro h; simp at h
        · intro h
          rw [show collapseWs [] = [] from rfl] at h
          simp at h
      | cons x u' =>
        by_cases hx : x = a
        · subst hx
          show (if x = x then (matchToks (w.map tokOf) u').map (· + 1) else none) =
              some (x :: u').length ↔ _
          rw [if_pos rfl]
          rw [collapseWs_cons_nonws hansp]
          constructor
          · intro h
            rcases hmo : matchToks (w.map tokOf) u' with _ | m
            · rw [hmo] at h; simp at h
            · rw [hmo] at h
              have hm' : m = u'.length := by simpa using h
              rw [hm'] at hmo
              rw [(ih hw hwchain u').1 hmo]
          · intro h
            have h2 : collapseWs u' = w := by
              have := List.cons.injEq x (collapseWs u') x w
              rw [this] at h
              exact h.2
            rw [(ih hw hwchain u').2 h2]
            simp
        · show (if x = a then (matchToks (w.map tokOf) u').map (· + 1) else none) =
              some (x :: u').length ↔ _
          rw [if_neg hx]
          constructor
          · intro h; simp at h
          · intro h
            exfalso
            by_cases hxsp : isPySpace x
            · rw [collapseWs_ws_run (u := x :: u') (by
                rw [List.takeWhile_cons_of_pos hxsp]; simp)] at h
              have : ' ' = a := by
                have := List.cons.injEq ' ' (collapseWs ((x :: u').drop ((x :: u').takeWhile isPySpace).length)) a w
                rw [this] at h
                exact h.1
              exact ha this.symm
            · rw [collapseWs_cons_nonws (by simpa using hxsp)] at h
              have : x = a := by
                have := List.cons.injEq x (collapseWs u') a w
                rw [this] at h
                exact h.1
              exact hx this

/-- What the compiled pattern of `_build_ws_pattern` matches in full: exactly
the strings whose whitespace-run normal form agrees with the search string's. -/
theorem buildWs_matches_iff (s u : Chars) :
    matchToks (buildWsTokens s) u = some u.length ↔ collapseWs u = collapseWs s := by
  rw [show buildWsTokens s = (collapseWs s).map tokOf from buildWsGo_eq_map false s]
  exact matchToks_full_iff (collapseWs s) (collapseGo_mem false s) (collapseGo_chain false s) u

/-- One-step unfolding of the `finditer` scan. -/
theorem reScanF_succ (f : Nat) (toks : List Tok) (text : Chars) (p : Nat) :
    reScanF (f + 1) toks text p =
      if p ≤ text.length then
        match matchToks toks (text.drop p) with
        | some n => if n = 0 then (p, p) :: reScanF f toks text (p + 1)
                    else (p, p + n) :: reScanF f toks text (p + n)
        | none => reScanF f toks text (p + 1)
      else [] := rfl

/-- Spans reported by the `finditer` scan are leftmost-first,
strictly increasing in start position, and non-overlapping. -/
theorem reScanF_sorted (toks : List Tok) (text : Chars) :
    ∀ (f p : Nat),
      (∀ sp ∈ reScanF f toks text p, p ≤ sp.1 ∧ sp.1 ≤ sp.2) ∧
      (reScanF f toks text p).Chain' (fun a b => a.2 ≤ b.1 ∧ a.1 < b.1) := by
  intro f
  induction f with
  | zero => intro p; exact ⟨by intro sp hsp; simp [reScanF] at hsp, by simp [reScanF]⟩
  | succ f ih =>
    intro p
    rw [reScanF_succ]
    by_cases hp : p ≤ text.length
    · rw [if_pos hp]
      cases hm : matchToks toks (text.drop p) with
      | none =>
        simp only []
        refine ⟨fun sp hsp => ?_, (ih (p + 1)).2⟩
        have := (ih (p + 1)).1 sp hsp
        exact ⟨by omega, this.2⟩
      | some n =>
        simp only []
        by_cases hn : n = 0
        · rw [if_pos hn]
          constructor
          · intro sp hsp
            rcases List.mem_cons.1 hsp with rfl | hsp
            · exact ⟨le_rfl, le_rfl⟩
            · have := (ih (p + 1)).1 sp hsp
              exact ⟨by omega, this.2⟩
          · rw [List.chain'_cons']
            refine ⟨?_, (ih (p + 1)).2⟩
            intro b hb
            have hb' := List.mem_of_mem_head? hb
            have := (ih (p + 1)).1 b hb'
            exact ⟨Nat.le_of_succ_le this.1, Nat.lt_of_succ_le this.1⟩
        · rw [if_neg hn]
          constructor
          · intro sp hsp
            rcases List.mem_cons.1 hsp with rfl | hsp
            · exact ⟨le_rfl, by omega⟩
            · have := (ih (p + n)).1 sp hsp
              exact ⟨by omega, this.2⟩
          · rw [List.chain'_cons']
            refine ⟨?_, (ih (p + n)).2⟩
            intro b hb
            have hb' := List.mem_of_mem_head? hb
            have := (ih (p + n)).1 b hb'
            exact ⟨this.1, by omega⟩
    · rw [if_neg hp]
      exact ⟨by intro sp hsp; simp at hsp, by simp⟩

/-! ### Support lemmas for the plain-text claims -/

theorem not_occursAt_of_le {t s : Chars} {j : Nat} (hs : s ≠ [])
    (hj : t.length ≤ j) : ¬ occursAt t s j := by
  intro h
  have h1 := occursAt_bound hs h
  have h2 := length_pos_of_ne_nil hs
  omega

theorem firstOcc_unique {t s : Chars} {i : Nat}
    (h1 : occursAt t s i) (h2 : ∀ j < t.length + 1, occursAt t s j → j = i) :
    firstOcc s t = some i := by
  cases hf : firstOcc s t with
  | none => exact absurd hf (firstOcc_isSome_of_occurs h1)
  | some i0 =>
    have hocc := firstOcc_some_occurs hf
    have hle := firstOcc_some_le hf
    rw [h2 i0 (by omega) hocc]

/-- A search string occurring exactly once yields a one-element match list. -/
theorem exactMatches_unique {t s : Chars} {i : Nat} (hs : s ≠ [])
    (h1 : occursAt t s i) (h2 : ∀ j < t.length + 1, occursAt t s j → j = i) :
    exactMatches t s = [(i, i + s.length)] := by
  have hbound := occursAt_bound hs h1
  have hslen := length_pos_of_ne_nil hs
  have hfo := firstOcc_unique h1 h2
  have hfind : findFrom t s 0 = some i := by
    unfold findFrom
    rw [if_pos (by omega), List.drop_zero, hfo]
    simp
  have hnone : findFrom t s (i + s.length) = none := by
    unfold findFrom
    rw [if_pos (by omega)]
    cases hfo2 : firstOcc s (t.drop (i + s.length)) with
    | none => simp
    | some j =>
      exfalso
      have hocc2 := firstOcc_some_occurs hfo2
      have hocc3 : occursAt t s (i + s.length + j) := (occursAt_drop t s _ j).1 hocc2
      have hb2 := occursAt_bound hs hocc3
      have := h2 (i + s.length + j) (by omega) hocc3
      omega
  unfold exactMatches
  cases hlen : t.length with
  | zero =>
    exfalso
    omega
  | succ n =>
    rw [exactScanF_of_some _ hfind, exactScanF_of_none _ hnone]

/-- The guard on line 179 of `bin/fedit.py` compares the terminator string
returned by `_detect_target_ending` with the literal `"crlf"`; no terminator
string equals `"crlf"`, so the translation always reduces to the
escape-marker substitution alone, whatever the detected line ending. -/
theorem translateRep_eq_norm (rep : Chars) (le : Option LineVariant) :
    translateRep rep le = pyReplace rep ['\\', 'n'] ['\n'] := by
  cases le with
  | none => rfl
  | some v => cases v <;> rfl

theorem translateRep_id {r : Chars} (le : Option LineVariant)
    (hmark : ∀ j, ¬ occursAt r ['\\', 'n'] j) :
    translateRep r le = r := by
  rw [translateRep_eq_norm]
  apply pyReplace_of_firstOcc_none (by simp)
  cases hf : firstOcc ['\\', 'n'] r with
  | none => rfl
  | some j => exact absurd (firstOcc_some_occurs hf) (hmark j)

/-! ### Claim theorems for the plain-text editor -/

/-- C1 (confirmed): for a non-empty search `s` occurring exactly once in `t`
and a replacement `r` containing no escaped-newline marker (the two-character
sequence `\n`), the plain-text edit replaces exactly that occurrence with `r`
itself and leaves every other character unchanged — for every detected line
ending: the guard on line 179 of `bin/fedit.py` is never true, so no further
rewriting of `r` ever happens. -/
theorem c1_unique_exact_replace (t s r : Chars) (i : Nat) (m : Bool) (hs : s ≠ [])
    (h1 : occursAt t s i) (h2 : ∀ j < t.length + 1, occursAt t s j → j = i)
    (hmark : ∀ j < r.length + 1, ¬ occursAt r ['\\', 'n'] j) :
    feditCompute t t s r m false false =
      .ok (t.take i ++ r ++ t.drop (i + s.length), 1) := by
  have hm : exactMatches t s = [(i, i + s.length)] := exactMatches_unique hs h1 h2
  have hmark' : ∀ j, ¬ occursAt r ['\\', 'n'] j := by
    intro j
    rcases Nat.lt_or_ge j (r.length + 1) with hj | hj
    · exact hmark j hj
    · exact not_occursAt_of_le (by simp) (by omega)
  have htr : translateRep r (detect_line_endings t) = r :=
    translateRep_id _ hmark'
  unfold feditCompute
  rw [if_neg Bool.false_ne_true, if_neg Bool.false_ne_true, hm]
  simp only [List.length_cons, List.length_nil, Nat.zero_add]
  rw [if_neg (by omega), if_neg (by rintro ⟨h, -⟩; omega)]
  rw [if_neg Bool.false_ne_true]
  simp [htr]

/-- C1 witness: the scenario `"version = 1.0.0"` with `"1.0.0" -> "2.0.0"`,
and a CRLF-dominant file whose replacement contains a bare newline, which is
inserted verbatim. -/
theorem c1_witness :
    ("1.0.0".toList : Chars) ≠ [] ∧
      feditCompute ("version = 1.0.0".toList) ("version = 1.0.0".toList)
          ("1.0.0".toList) ("2.0.0".toList) false false false =
        .ok (("version = 1.0.0".toList : Chars).take 10 ++ "2.0.0".toList ++
          ("version = 1.0.0".toList : Chars).drop 15, 1) ∧
      feditCompute ("a\r\nb".toList) ("a\r\nb".toList) ("b".toList) ("x\ny".toList)
          false false false =
        .ok (("a\r\nb".toList : Chars).take 3 ++ "x\ny".toList ++
          ("a\r\nb".toList : Chars).drop 4, 1) :=
  ⟨by decide,
    c1_unique_exact_replace ("version = 1.0.0".toList) ("1.0.0".toList)
      ("2.0.0".toList) 10 false (by decide) (by decide) (by decide) (by decide),
    c1_unique_exact_replace ("a\r\nb".toList) ("b".toList)
      ("x\ny".toList) 3 false (by decide) (by decide) (by decide) (by decide)⟩

/-- C2 (confirmed): when the non-empty search string occurs at least twice,
editing without `--multiple` fails with the ambiguity error reporting the
true non-overlapping occurrence count, and editing with `--multiple`
replaces every occurrence — the output is the span reconstruction over the
scan's spans, with the replacement content exactly the escape-marker
substitution of `r` (the CRLF-rewrite branch on line 179 of `bin/fedit.py`
being dead code, nothing else is ever substituted) — and reports that same
count. -/
theorem c2_ambiguous_and_replace_all (t s r : Chars) (hs : s ≠ [])
    (h2 : 2 ≤ countOcc t s) :
    feditCompute t t s r false false false = .error (.ambiguous (countOcc t s)) ∧
    feditCompute t t s r true false false =
      .ok (spliceFrom t 0 (exactMatches t s)
            (pyReplace r ['\\', 'n'] ['\n']), countOcc t s) := by
  have hlen : (exactMatches t s).length = countOcc t s := by
    have := @exactScanF_length t s hs (t.length + 1) 0 (by omega) (by omega)
    rwa [List.drop_zero] at this
  have hsplice : spliceFrom t 0 (exactMatches t s)
      (translateRep r (detect_line_endings t)) =
      pyReplace t s (translateRep r (detect_line_endings t)) := by
    have := @exactScanF_splice t s hs (t.length + 1) 0
      (translateRep r (detect_line_endings t)) (by omega) (by omega)
    rwa [List.drop_zero] at this
  constructor
  · unfold feditCompute
    simp only [Bool.false_eq_true, if_false, hlen]
    rw [if_neg (by omega), if_pos ⟨by omega, trivial⟩]
  · unfold feditCompute
    simp only [Bool.false_eq_true, if_false, hlen]
    rw [if_neg (by omega), if_neg (by rintro ⟨-, h⟩; simp at h)]
    rw [if_neg (by omega), ← translateRep_eq_norm r (detect_line_endings t), hsplice]

/-- C2 witness: `"aa bb aa"` contains `"aa"` twice. -/
theorem c2_witness :
    ("aa".toList : Chars) ≠ [] ∧ 2 ≤ countOcc ("aa bb aa".toList) ("aa".toList) ∧
      feditCompute ("aa bb aa".toList) ("aa bb aa".toList) ("aa".toList) ("c".toList)
          false false false =
        .error (.ambiguous (countOcc ("aa bb aa".toList) ("aa".toList))) :=
  ⟨by decide, by decide,
    (c2_ambiguous_and_replace_all ("aa bb aa".toList) ("aa".toList) ("c".toList)
      (by decide) (by decide)).1⟩

/-- C4 (code bug): the detection half of the claim is faithful to the code —
the detected ending is `Unknown` exactly when the file contains no newline and
CRLF exactly when there is a newline and the `\r\n` count is at least the
bare-`\n` count — but the translation half is false of the program:
`_detect_target_ending` returns a terminator string (`"\r\n"`, `"\n"` or
`None`), and line 179 of `bin/fedit.py` compares it to the literal `"crlf"`,
a comparison that never holds, so the CRLF rewrite is dead code and the
escaped newline marker always produces a bare `"\n"` — shown end to end on a
CRLF-dominant file. -/
theorem c4_crlf_translation_dead_branch :
    (∀ raw : Chars, detect_line_endings raw = none ↔ raw.count '\n' = 0) ∧
    (∀ raw : Chars, detect_line_endings raw = some LineVariant.crlf ↔
      (raw.count '\n' ≠ 0 ∧
        raw.count '\n' - countOcc raw ['\r', '\n'] ≤ countOcc raw ['\r', '\n'])) ∧
    (∀ le : Option LineVariant, detect_target_ending le ≠ some ("crlf".toList)) ∧
    (∀ (rep : Chars) (le : Option LineVariant),
      translateRep rep le = pyReplace rep ['\\', 'n'] ['\n']) ∧
    detect_line_endings ("x\r\ny".toList) = some LineVariant.crlf ∧
    feditCompute ("x\r\ny".toList) ("x\r\ny".toList) ("y".toList) ("a\\nb".toList)
        false false false = .ok ("x\r\na\nb".toList, 1) := by
  refine ⟨?_, ?_, ?_, translateRep_eq_norm, by decide, by decide⟩
  · intro raw
    have hle := countOcc_crlf_le_count_lf raw
    simp only [detect_line_endings]
    constructor
    · intro h
      split at h
      · omega
      · split at h <;> simp at h
    · intro h
      rw [if_pos (by omega)]
  · intro raw
    have hle := countOcc_crlf_le_count_lf raw
    simp only [detect_line_endings]
    constructor
    · intro hd
      split at hd
      · simp at hd
      · split at hd
        · refine ⟨by omega, ?_⟩
          exact ‹raw.count '\n' - countOcc raw ['\r', '\n'] ≤ countOcc raw ['\r', '\n']›
        · simp at hd
    · rintro ⟨hnz, hcmp⟩
      rw [if_neg (by omega), if_pos hcmp]
  · intro le
    cases le with
    | none => decide
    | some v => cases v <;> decide

/-- C5 (confirmed): the compiled whitespace-insensitive pattern matches a
string in full exactly when its whitespace-run normal form (every maximal
whitespace run collapsed) equals that of the search string — maximal
whitespace runs match "one or more whitespace of any kind" and all other
characters match literally.  In particular `"a  b"` matches `"a\tb"` and
`"a\n b"`; and the scan reports matches leftmost-first, non-overlapping,
with strictly increasing start positions. -/
theorem c5_whitespace_insensitive_matching :
    (∀ s u : Chars,
      matchToks (buildWsTokens s) u = some u.length ↔ collapseWs u = collapseWs s) ∧
    reScan (buildWsTokens ("a  b".toList)) ("xa\tby".toList) = [(1, 4)] ∧
    reScan (buildWsTokens ("a  b".toList)) ("a\n bz".toList) = [(0, 4)] ∧
    (∀ (toks : List Tok) (text : Chars),
      (reScan toks text).Chain' (fun a b => a.2 ≤ b.1 ∧ a.1 < b.1)) := by
  refine ⟨buildWs_matches_iff, by decide, by decide, ?_⟩
  intro toks text
  exact (reScanF_sorted toks text (text.length + 1) 0).2

/-- C10 (confirmed): for a non-empty search string the exact-match loop is
fuel-stable (terminates), every span is non-degenerate with width the search
length, spans are leftmost-first and non-overlapping (searching `"aa"` in
`"aaa"` yields exactly one match); for the empty search string every amount
of fuel yields as many spans as fuel, i.e. the Python loop never halts. -/
theorem c10_exact_scan_termination (t s : Chars) (hs : s ≠ []) :
    (∀ p ∈ exactMatches t s, p.1 < p.2 ∧ p.2 = p.1 + s.length) ∧
    (exactMatches t s).Chain' (fun a b => a.2 ≤ b.1) ∧
    (∀ extra : Nat, exactScanF (t.length + 1 + extra) t s 0 = exactMatches t s) ∧
    exactMatches ("aaa".toList) ("aa".toList) = [(0, 2)] ∧
    (∀ (u : Chars) (f : Nat), (exactScanF f u [] 0).length = f) := by
  have hslen := length_pos_of_ne_nil hs
  refine ⟨?_, ?_, ?_, by decide, ?_⟩
  · intro p hp
    have := (exactScanF_sorted t s (t.length + 1) 0).1 p hp
    exact ⟨by omega, this.2⟩
  · exact (exactScanF_sorted t s (t.length + 1) 0).2
  · intro extra
    exact exactScanF_stable hs (t.length + 1 + extra) (t.length + 1) 0
      (by omega) (by omega) (by omega)
  · intro u f
    induction f with
    | zero => rfl
    | succ f ih =>
      have hfind : findFrom u [] 0 = some 0 := by
        unfold findFrom
        rw [if_pos (by omega)]
        cases u <;> simp [firstOcc]
      rw [exactScanF_of_some _ hfind]
      simpa using ih

/-- C10 witness: a concrete non-empty search, with the fuel-stability
conjunct instantiated. -/
theorem c10_witness :
    ("a".toList : Chars) ≠ [] ∧
      exactScanF (("abc".toList : Chars).length + 1 + 5) ("abc".toList) ("a".toList) 0 =
        exactMatches ("abc".toList) ("a".toList) :=
  ⟨by decide, (c10_exact_scan_termination ("abc".toList) ("a".toList) (by decide)).2.2.1 5⟩

/-! ### Claim theorems for the structured tools -/

/-- C3 (corrected): every failure path of the plain-text command and of the
structured JSON command leaves the target exactly in its pre-invocation
state and leaves no temporary file (their writes go through
write-temp/fsync/rename with removal of the temp on failure); for the
YAML/TOML command this holds for every failure before the write, but not
for a failure during its direct truncating write (`c3_counterexample`). -/
theorem c3_failure_leaves_target_untouched :
    (∀ (search rep : Chars) (m d w st : Bool) (target : Option Chars)
        (ro dec : Bool) (wr : WriteOutcome),
      (feditMain search rep m d w st target ro dec wr).exit ≠ 0 →
        (feditMain search rep m d w st target ro dec wr).target = target ∧
        (feditMain search rep m d w st target ro dec wr).tempLeft = false) ∧
    (∀ (st : Bool) (p r : Chars) (target : Option Chars)
        (parsed replParsed : Option JValue) (wr : WriteOutcome),
      (jsonMain st p r target parsed replParsed wr).exit ≠ 0 →
        (jsonMain st p r target parsed replParsed wr).target = target ∧
        (jsonMain st p r target parsed replParsed wr).tempLeft = false) ∧
    (∀ (af : Option Chars) (sfx p r : Chars) (target : Option Chars),
      (yamlTomlMain af sfx p r target none).exit ≠ 0 →
        (yamlTomlMain af sfx p r target none).target = target ∧
        (yamlTomlMain af sfx p r target none).tempLeft = false) := by
  refine ⟨?_, ?_, ?_⟩
  · intro search rep m d w st target ro dec wr
    rcases target with _ | raw <;> simp only [feditMain] <;> repeat' split
    all_goals intro h
    all_goals first
      | exact ⟨rfl, rfl⟩
      | exact ⟨trivial, trivial⟩
      | exact absurd rfl h
  · intro st p r target parsed replParsed wr
    rcases target with _ | content <;> rcases parsed with _ | data <;>
      rcases replParsed with _ | newV <;> rcases wr with _ | _ <;>
      simp only [jsonMain] <;> repeat' split
    all_goals intro h
    all_goals first
      | exact ⟨rfl, rfl⟩
      | exact ⟨trivial, trivial⟩
      | exact absurd rfl h
  · intro af sfx p r target
    rcases target with _ | content <;> simp only [yamlTomlMain] <;> repeat' split
    all_goals intro h
    all_goals first
      | exact ⟨rfl, rfl⟩
      | exact ⟨trivial, trivial⟩
      | exact absurd rfl h

/-- C3 counterexample: a write failure of the YAML/TOML command (which calls
`Path.write_text` directly, with no temporary file and no rename) leaves the
target truncated: editing `"a: 1\n"` at path `a` with a failure after 0
written characters leaves the file empty, not in its pre-invocation state. -/
theorem c3_counterexample :
    yamlTomlMain none (".yaml".toList) ("a".toList) ("2".toList)
        (some ("a: 1\n".toList)) (some 0) = ⟨1, some [], false⟩ ∧
      (some ([] : Chars)) ≠ (some ("a: 1\n".toList)) :=
  ⟨by decide, by decide⟩

/-- C3 witness: a no-match failure of the plain-text command leaves the file
untouched. -/
theorem c3_witness :
    (feditMain ("zz".toList) ("y".toList) false false false false
        (some ("abc".toList)) true true .ok).exit ≠ 0 ∧
      (feditMain ("zz".toList) ("y".toList) false false false false
        (some ("abc".toList)) true true .ok).target = some ("abc".toList) ∧
      (feditMain ("zz".toList) ("y".toList) false false false false
        (some ("abc".toList)) true true .ok).tempLeft = false := by
  refine ⟨by decide, ?_⟩
  have h := c3_failure_leaves_target_untouched.1 ("zz".toList) ("y".toList)
    false false false false (some ("abc".toList)) true true .ok (by decide)
  exact ⟨h.1, h.2⟩

/-! ### Support lemmas for the JSON key-path claims -/

theorem lookupF_fapp_not_mem : ∀ {pre : JFields} {k : Chars} {v : JValue} {post : JFields},
    k ∉ keysF pre → lookupF (fapp pre (.fcons k v post)) k = some v
  | .fnil, k, v, post, _ => by simp [fapp, lookupF]
  | .fcons k' v' tl, k, v, post, h => by
    have hk' : k' ≠ k := fun he => h (by simp [keysF, he])
    simp only [fapp, lookupF, if_neg hk']
    exact lookupF_fapp_not_mem (fun hm => h (by simp [keysF, hm]))

theorem updF_fapp_not_mem : ∀ {pre : JFields} {k : Chars} {v nv : JValue} {post : JFields},
    k ∉ keysF pre → updF (fapp pre (.fcons k v post)) k nv = fapp pre (.fcons k nv post)
  | .fnil, k, v, nv, post, _ => by simp [fapp, updF]
  | .fcons k' v' tl, k, v, nv, post, h => by
    have hk' : k' ≠ k := fun he => h (by simp [keysF, he])
    simp only [fapp, updF, if_neg hk']
    rw [updF_fapp_not_mem (fun hm => h (by simp [keysF, hm]))]

theorem set_value_scalar {v : JValue} (h : isScalar v = true) (st : Step) (nv : JValue) :
    set_value v st nv = .error .invalidKeyPath := by
  cases v <;> cases st <;> first | rfl | simp [isScalar] at h

theorem getL_cons_one (a b : JValue) (tl : JList) :
    getL (.cons a (.cons b tl)) 1 = some b := rfl

theorem setL_cons_one (a b nv : JValue) (tl : JList) :
    setL (.cons a (.cons b tl)) 1 nv = .cons a (.cons nv tl) := rfl

theorem getL_cons_add_two (a b : JValue) (tl : JList) (n : Nat) :
    getL (.cons a (.cons b tl)) (n + 2) = getL tl n := rfl

/-- C6 (confirmed): in a tree whose `items` entry is a sequence of two maps,
the edit at `items[1].name` (whose key-path string parses to exactly those
steps) rewrites only the second map's `name` slot and leaves every other
entry — fields before and after `items`, the first map, and the second
map's other fields — unchanged; a path one level too deep fails with
`InvalidKeyPath`, as does an index outside the sequence's bounds. -/
theorem c6_keypath_mutation (pre post p1 q1 : JFields) (m0 oldv newv : JValue)
    (x : Chars) (k : Int)
    (hpre : ("items".toList : Chars) ∉ keysF pre)
    (hp1 : ("name".toList : Chars) ∉ keysF p1)
    (hscalar : isScalar oldv = true)
    (hk : ¬ (0 ≤ k ∧ k.toNat < 2)) :
    parse_path ("items[1].name".toList) =
      .ok [Step.key ("items".toList), Step.idx 1, Step.key ("name".toList)] ∧
    applyEdit (.jobj (fapp pre (.fcons ("items".toList)
        (.jarr (.cons m0 (.cons (.jobj (fapp p1 (.fcons ("name".toList) oldv q1))) .nil)))
        post)))
      [Step.key ("items".toList), Step.idx 1, Step.key ("name".toList)] newv =
      .ok (.jobj (fapp pre (.fcons ("items".toList)
        (.jarr (.cons m0 (.cons (.jobj (fapp p1 (.fcons ("name".toList) newv q1))) .nil)))
        post))) ∧
    applyEdit (.jobj (fapp pre (.fcons ("items".toList)
        (.jarr (.cons m0 (.cons (.jobj (fapp p1 (.fcons ("name".toList) oldv q1))) .nil)))
        post)))
      [Step.key ("items".toList), Step.idx 1, Step.key ("name".toList), Step.key x] newv =
      .error .invalidKeyPath ∧
    applyEdit (.jobj (fapp pre (.fcons ("items".toList)
        (.jarr (.cons m0 (.cons (.jobj (fapp p1 (.fcons ("name".toList) oldv q1))) .nil)))
        post)))
      [Step.key ("items".toList), Step.idx k, Step.key ("name".toList)] newv =
      .error .invalidKeyPath := by
  set tree := JValue.jobj (fapp pre (.fcons ("items".toList)
      (.jarr (.cons m0 (.cons (.jobj (fapp p1 (.fcons ("name".toList) oldv q1))) .nil)))
      post)) with htree
  refine ⟨by decide, ?_, ?_, ?_⟩
  · have hred : applyEdit tree
        [Step.key ("items".toList), Step.idx 1, Step.key ("name".toList)] newv =
        updAtSteps tree [Step.key ("items".toList), Step.idx 1]
          (fun parent => set_value parent (Step.key ("name".toList)) newv) := rfl
    rw [hred, htree]
    have hpre' : (['i', 't', 'e', 'm', 's'] : Chars) ∉ keysF pre := hpre
    have hp1' : (['n', 'a', 'm', 'e'] : Chars) ∉ keysF p1 := hp1
    simp [updAtSteps, set_value, lookupF_fapp_not_mem hpre', lookupF_fapp_not_mem hp1',
      updF_fapp_not_mem hpre', updF_fapp_not_mem hp1', getL_cons_one, setL_cons_one, Except.map]
  · have hred : applyEdit tree
        [Step.key ("items".toList), Step.idx 1, Step.key ("name".toList), Step.key x] newv =
        updAtSteps tree [Step.key ("items".toList), Step.idx 1, Step.key ("name".toList)]
          (fun parent => set_value parent (Step.key x) newv) := rfl
    rw [hred, htree]
    have hpre' : (['i', 't', 'e', 'm', 's'] : Chars) ∉ keysF pre := hpre
    have hp1' : (['n', 'a', 'm', 'e'] : Chars) ∉ keysF p1 := hp1
    simp [updAtSteps, lookupF_fapp_not_mem hpre', lookupF_fapp_not_mem hp1',
      set_value_scalar hscalar, getL_cons_one, setL_cons_one, Except.map]
  · have hred : applyEdit tree
        [Step.key ("items".toList), Step.idx k, Step.key ("name".toList)] newv =
        updAtSteps tree [Step.key ("items".toList), Step.idx k]
          (fun parent => set_value parent (Step.key ("name".toList)) newv) := rfl
    rw [hred, htree]
    have hpre' : (['i', 't', 'e', 'm', 's'] : Chars) ∉ keysF pre := hpre
    simp only [show ("items".toList : Chars) = ['i', 't', 'e', 'm', 's'] from rfl,
      show ("name".toList : Chars) = ['n', 'a', 'm', 'e'] from rfl]
    simp only [updAtSteps, lookupF_fapp_not_mem hpre']
    by_cases h0 : (0 : Int) ≤ k
    · rw [if_pos h0]
      have h2 : 2 ≤ k.toNat := by
        rcases Nat.lt_or_ge k.toNat 2 with hlt | hge
        · exact absurd ⟨h0, hlt⟩ hk
        · exact hge
      obtain ⟨n', hn'⟩ : ∃ n', k.toNat = n' + 2 := ⟨k.toNat - 2, by omega⟩
      rw [hn']
      simp [getL_cons_add_two, getL, Except.map]
    · rw [if_neg h0]
      simp [Except.map]

/-- C6 witness: a concrete two-map sequence with surrounding fields. -/
theorem c6_witness :
    parse_path ("items[1].name".toList) =
      .ok [Step.key ("items".toList), Step.idx 1, Step.key ("name".toList)] ∧
    applyEdit (.jobj (fapp .fnil (.fcons ("items".toList)
        (.jarr (.cons (.jobj (.fcons ("name".toList) (.jstr ("first".toList)) .fnil))
          (.cons (.jobj (fapp .fnil (.fcons ("name".toList) (.jstr ("old".toList)) .fnil)))
          .nil)))
        (.fcons ("z".toList) .null .fnil))))
      [Step.key ("items".toList), Step.idx 1, Step.key ("name".toList)]
      (.jstr ("new".toList)) =
      .ok (.jobj (fapp .fnil (.fcons ("items".toList)
        (.jarr (.cons (.jobj (.fcons ("name".toList) (.jstr ("first".toList)) .fnil))
          (.cons (.jobj (fapp .fnil (.fcons ("name".toList) (.jstr ("new".toList)) .fnil)))
          .nil)))
        (.fcons ("z".toList) .null .fnil)))) := by
  have h := c6_keypath_mutation .fnil (.fcons ("z".toList) .null .fnil) .fnil .fnil
    (.jobj (.fcons ("name".toList) (.jstr ("first".toList)) .fnil))
    (.jstr ("old".toList)) (.jstr ("new".toList)) ("deep".toList) 2
    (by decide) (by decide) (by decide) (by decide)
  exact ⟨h.1, h.2.1⟩

/-! ### Claim theorems for key-path parsing -/

theorem splitAtChar_none_of_not_mem {ch : Char} : ∀ {l : Chars}, ch ∉ l →
    splitAtChar ch l = none := by
  intro l
  induction l with
  | nil => intro _; rfl
  | cons c rest ih =>
    intro h
    unfold splitAtChar
    rw [if_neg (by intro he; exact h (by simp [he]))]
    rw [ih (fun hm => h (by simp [hm]))]
    rfl

theorem parsePathF_unclosed : ∀ (f : Nat) (p : Chars), p.length < f →
    '[' ∈ p → ']' ∉ p → parsePathF f p = .error .invalidKeyPath := by
  intro f
  induction f with
  | zero => intro p h; omega
  | succ f ih =>
    intro p hlen hbr hnobr
    cases p with
    | nil => simp at hbr
    | cons c rest =>
      show parsePathF (f + 1) (c :: rest) = _
      unfold parsePathF
      by_cases hc : c = '.'
      · rw [if_pos hc]
        apply ih rest (by simp at hlen; omega)
        · rcases List.mem_cons.1 hbr with he | hm
          · rw [← he] at hc; simp at hc
          · exact hm
        · intro hm; exact hnobr (by simp [hm])
      · rw [if_neg hc]
        by_cases hc2 : c = '['
        · rw [if_pos hc2]
          rw [splitAtChar_none_of_not_mem (fun hm => hnobr (by simp [hm]))]
        · rw [if_neg hc2]
          have hkey : (c :: rest).takeWhile (fun ch => !(isKeyStop ch)) =
              c :: rest.takeWhile (fun ch => !(isKeyStop ch)) := by
            rw [List.takeWhile_cons_of_pos]
            simp [isKeyStop, hc, hc2]
          have hdroplt : ((c :: rest).drop
              ((c :: rest).takeWhile (fun ch => !(isKeyStop ch))).length).length < f := by
            rw [hkey]
            simp only [List.length_cons, List.drop_succ_cons, List.length_drop]
            have := (List.takeWhile_prefix (l := rest)
              (fun ch => !(isKeyStop ch))).length_le
            simp at hlen
            omega
          have hrec := ih ((c :: rest).drop
              ((c :: rest).takeWhile (fun ch => !(isKeyStop ch))).length)
            hdroplt ?_ ?_
          · simp only [hrec, Except.map]
          · have hsplit := drop_of_prefix (List.takeWhile_prefix
              (l := c :: rest) (fun ch => !(isKeyStop ch)))
            have hniltw : '[' ∉ (c :: rest).takeWhile (fun ch => !(isKeyStop ch)) := by
              intro hm
              have := List.mem_takeWhile_imp hm
              simp [isKeyStop] at this
            rcases List.mem_append.1 (by rw [← hsplit]; exact hbr) with hm | hm
            · exact absurd hm hniltw
            · exact hm
          · intro hm
            apply hnobr
            have hsplit := drop_of_prefix (List.takeWhile_prefix
              (l := c :: rest) (fun ch => !(isKeyStop ch)))
            rw [hsplit]
            exact List.mem_append.2 (Or.inr hm)

/-- A leading dot of `parse_path` is consumed with no effect. -/
theorem parse_path_dot (q : Chars) : parse_path ('.' :: q) = parse_path q := by
  show parsePathF (q.length + 1 + 1) ('.' :: q) = _
  unfold parsePathF
  rw [if_pos rfl]
  rfl

/-- `splitAtChar` splits the whole list. -/
theorem splitAtChar_length {ch : Char} : ∀ {l a b : Chars},
    splitAtChar ch l = some (a, b) → l.length = a.length + b.length + 1 := by
  intro l
  induction l with
  | nil => intro a b h; exact absurd h (by simp [splitAtChar])
  | cons c tl ih =>
    intro a b h
    unfold splitAtChar at h
    by_cases hc : c = ch
    · rw [if_pos hc] at h
      have h3 : (([] : Chars), tl) = (a, b) := by injection h
      have h4 : ([] : Chars) = a := congrArg Prod.fst h3
      have h5 : tl = b := congrArg Prod.snd h3
      subst h4
      subst h5
      simp
    · rw [if_neg hc] at h
      cases hs : splitAtChar ch tl with
      | none => rw [hs] at h; exact absurd h (by simp)
      | some pr =>
        rw [hs] at h
        have h2 : some (c :: pr.1, pr.2) = some (a, b) := h
        have h3 : (c :: pr.1, pr.2) = (a, b) := by injection h2
        have h4 : c :: pr.1 = a := congrArg Prod.fst h3
        have h5 : pr.2 = b := congrArg Prod.snd h3
        subst h4
        subst h5
        have := ih hs
        simp at this ⊢
        omega

/-- `takeWhile` stops at an appended failing head. -/
theorem takeWhile_append_stop (p : Char → Bool) (x : Char) (hx : p x = false) :
    ∀ (l s : Chars), (l ++ x :: s).takeWhile p = l.takeWhile p := by
  intro l
  induction l with
  | nil =>
    intro s
    rw [List.nil_append, List.takeWhile_nil, List.takeWhile_cons_of_neg (by simp [hx])]
  | cons c tl ih =>
    intro s
    by_cases hc : p c = true
    · rw [List.cons_append, List.takeWhile_cons_of_pos hc,
        List.takeWhile_cons_of_pos hc, ih]
    · rw [List.cons_append, List.takeWhile_cons_of_neg (by simp [hc]),
        List.takeWhile_cons_of_neg (by simp [hc])]

/-- `parsePathF` is fuel-stable: any fuel above the string length gives the
same result (the cursor consumes at least one character per iteration). -/
theorem parsePathF_congr : ∀ (f f' : Nat) (p : Chars), p.length < f → p.length < f' →
    parsePathF f p = parsePathF f' p := by
  intro f
  induction f with
  | zero => intro f' p h _; omega
  | succ f ih =>
    intro f' p hf hf'
    cases f' with
    | zero => omega
    | succ f'' =>
      cases p with
      | nil => rfl
      | cons c rest =>
        show parsePathF (f + 1) (c :: rest) = parsePathF (f'' + 1) (c :: rest)
        unfold parsePathF
        by_cases hc : c = '.'
        · rw [if_pos hc, if_pos hc]
          exact ih f'' rest (by simp at hf; omega) (by simp at hf'; omega)
        · rw [if_neg hc, if_neg hc]
          by_cases hc2 : c = '['
          · rw [if_pos hc2, if_pos hc2]
            cases hs : splitAtChar ']' rest with
            | none => rfl
            | some pr =>
              obtain ⟨before, after⟩ := pr
              have hl := splitAtChar_length hs
              cases hint : pyInt before with
              | none => simp only [hint]
              | some n =>
                simp only [hint]
                rw [ih f'' after (by simp at hf; omega) (by simp at hf'; omega)]
          · rw [if_neg hc2, if_neg hc2]
            have hkey : (c :: rest).takeWhile (fun ch => !(isKeyStop ch)) =
                c :: rest.takeWhile (fun ch => !(isKeyStop ch)) := by
              rw [List.takeWhile_cons_of_pos]
              simp [isKeyStop, hc, hc2]
            have hle := (List.takeWhile_prefix (l := rest)
              (fun ch => !(isKeyStop ch))).length_le
            have hrec := ih f'' ((c :: rest).drop
                ((c :: rest).takeWhile (fun ch => !(isKeyStop ch))).length)
              (by rw [hkey]
                  simp only [List.length_cons, List.drop_succ_cons, List.length_drop]
                  simp at hf
                  omega)
              (by rw [hkey]
                  simp only [List.length_cons, List.drop_succ_cons, List.length_drop]
                  simp at hf'
                  omega)
            simp only [hrec]

/-- Appending to a list splits `splitAtChar` results after the found
character. -/
theorem splitAtChar_append_some (ch : Char) (ext : Chars) : ∀ (l a b : Chars),
    splitAtChar ch l = some (a, b) → splitAtChar ch (l ++ ext) = some (a, b ++ ext) := by
  intro l
  induction l with
  | nil => intro a b h; exact absurd h (by simp [splitAtChar])
  | cons c tl ih =>
    intro a b h
    unfold splitAtChar at h
    rw [List.cons_append]
    unfold splitAtChar
    by_cases hc : c = ch
    · rw [if_pos hc] at h ⊢
      have h3 : (([] : Chars), tl) = (a, b) := by injection h
      have h4 : ([] : Chars) = a := congrArg Prod.fst h3
      have h5 : tl = b := congrArg Prod.snd h3
      subst h4
      subst h5
      rfl
    · rw [if_neg hc] at h ⊢
      cases hs : splitAtChar ch tl with
      | none => rw [hs] at h; exact absurd h (by simp)
      | some pr =>
        rw [hs] at h
        have h2 : some (c :: pr.1, pr.2) = some (a, b) := h
        have h3 : (c :: pr.1, pr.2) = (a, b) := by injection h2
        have h4 : c :: pr.1 = a := congrArg Prod.fst h3
        have h5 : pr.2 = b := congrArg Prod.snd h3
        subst h4
        subst h5
        rw [ih pr.1 pr.2 hs]
        rfl

/-- `path_str.find("]", i)` returns the first `]` at or after the cursor. -/
theorem splitAtChar_first (r : Chars) : ∀ (s : Chars), ']' ∉ s →
    splitAtChar ']' (s ++ ']' :: r) = some (s, r) := by
  intro s
  induction s with
  | nil =>
    intro _
    rw [List.nil_append]
    unfold splitAtChar
    rw [if_pos rfl]
  | cons c tl ih =>
    intro h
    rw [List.cons_append]
    unfold splitAtChar
    rw [if_neg (fun he => h (by simp [he]))]
    rw [ih (fun hm => h (by simp [hm]))]
    rfl

/-- Parse composition: appending `'[' :: s` to a successfully parsed prefix
parses the suffix independently, the prefix's steps in front, errors of the
suffix propagating unchanged. -/
theorem parsePathF_append : ∀ (f : Nat) (q s : Chars) (steps : List Step),
    q.length < f → parsePathF f q = .ok steps →
    ∀ g : Nat, (q ++ '[' :: s).length < g →
    parsePathF g (q ++ '[' :: s) = (parse_path ('[' :: s)).map (fun l => steps ++ l) := by
  intro f
  induction f with
  | zero => intro q s steps h _; omega
  | succ f ih =>
    intro q s steps hlen h g hg
    cases g with
    | zero => omega
    | succ g' =>
      cases q with
      | nil =>
        have h' : (Except.ok ([] : List Step) : Except PErr (List Step)) = .ok steps := h
        have hsteps : ([] : List Step) = steps := by injection h'
        subst hsteps
        rw [List.nil_append] at hg ⊢
        rw [parsePathF_congr (g' + 1) (('[' :: s).length + 1) ('[' :: s) hg (by omega)]
        show parse_path ('[' :: s) = (parse_path ('[' :: s)).map (fun l => [] ++ l)
        cases hp : parse_path ('[' :: s) with
        | error e => simp [Except.map]
        | ok l => simp [Except.map]
      | cons c rest =>
        by_cases hc : c = '.'
        · subst hc
          have h' : parsePathF f rest = .ok steps := by
            have hu : parsePathF (f + 1) ('.' :: rest) = parsePathF f rest := by
              conv_lhs => unfold parsePathF
              rw [if_pos rfl]
            rwa [hu] at h
          have hgoal : parsePathF (g' + 1) (('.' :: rest) ++ '[' :: s) =
              parsePathF g' (rest ++ '[' :: s) := by
            rw [List.cons_append]
            conv_lhs => unfold parsePathF
            rw [if_pos rfl]
          rw [hgoal]
          exact ih rest s steps (by simp at hlen; omega) h' g' (by simp at hg ⊢; omega)
        · by_cases hc2 : c = '['
          · subst hc2
            have hu : parsePathF (f + 1) ('[' :: rest) =
                (match splitAtChar ']' rest with
                 | none => (.error .invalidKeyPath : Except PErr (List Step))
                 | some (before, after) =>
                   match pyInt before with
                   | none => .error .valueError
                   | some n => (parsePathF f after).map (fun l => Step.idx n :: l)) := by
              conv_lhs => unfold parsePathF
              rw [if_neg (by decide), if_pos rfl]
            rw [hu] at h
            cases hs : splitAtChar ']' rest with
            | none => simp [hs] at h
            | some pr =>
              obtain ⟨before, after⟩ := pr
              cases hint : pyInt before with
              | none => simp [hs, hint] at h
              | some n =>
                cases hrec : parsePathF f after with
                | error e => simp [hs, hint, hrec, Except.map] at h
                | ok l =>
                  simp only [hs, hint, hrec, Except.map] at h
                  have hsteps : Step.idx n :: l = steps := by simpa using h
                  subst hsteps
                  have hsp := splitAtChar_append_some ']' ('[' :: s) rest before after hs
                  have hlsplit := splitAtChar_length hs
                  have hgu : parsePathF (g' + 1) (('[' :: rest) ++ '[' :: s) =
                      (parsePathF g' (after ++ '[' :: s)).map
                        (fun t => Step.idx n :: t) := by
                    rw [List.cons_append]
                    conv_lhs => unfold parsePathF
                    rw [if_neg (by decide), if_pos rfl]
                    simp only [hsp, hint]
                  rw [hgu]
                  have hih := ih after s l (by simp at hlen; omega) hrec g'
                    (by simp at hg ⊢; omega)
                  rw [hih]
                  cases hp : parse_path ('[' :: s) with
                  | error e => simp [Except.map]
                  | ok t => simp [Except.map]
          · have hkey : (c :: rest).takeWhile (fun ch => !(isKeyStop ch)) =
                c :: rest.takeWhile (fun ch => !(isKeyStop ch)) := by
              rw [List.takeWhile_cons_of_pos]
              simp [isKeyStop, hc, hc2]
            have hu : parsePathF (f + 1) (c :: rest) =
                (parsePathF f ((c :: rest).drop
                    ((c :: rest).takeWhile (fun ch => !(isKeyStop ch))).length)).map
                  (fun t =>
                    Step.key ((c :: rest).takeWhile (fun ch => !(isKeyStop ch))) :: t) := by
              conv_lhs => unfold parsePathF
              rw [if_neg hc, if_neg hc2]
            rw [hu] at h
            cases hrec : parsePathF f ((c :: rest).drop
                ((c :: rest).takeWhile (fun ch => !(isKeyStop ch))).length) with
            | error e => rw [hrec] at h; exact absurd h (by simp [Except.map])
            | ok l =>
              rw [hrec] at h
              have hsteps :
                  Step.key ((c :: rest).takeWhile (fun ch => !(isKeyStop ch))) :: l =
                    steps := by simpa [Except.map] using h
              subst hsteps
              have hstop : (fun ch => !(isKeyStop ch)) '[' = false := by decide
              have htkap : ((c :: rest) ++ '[' :: s).takeWhile (fun ch => !(isKeyStop ch)) =
                  (c :: rest).takeWhile (fun ch => !(isKeyStop ch)) :=
                takeWhile_append_stop _ _ hstop (c :: rest) s
              have hlenle : ((c :: rest).takeWhile (fun ch => !(isKeyStop ch))).length ≤
                  (c :: rest).length :=
                (List.takeWhile_prefix _).length_le
              have hdrop : ((c :: rest) ++ '[' :: s).drop
                  ((c :: rest).takeWhile (fun ch => !(isKeyStop ch))).length =
                  (c :: rest).drop
                    ((c :: rest).takeWhile (fun ch => !(isKeyStop ch))).length ++ '[' :: s :=
                List.drop_append_of_le_length hlenle
              rw [List.cons_append] at htkap hdrop ⊢
              have hgu : parsePathF (g' + 1) (c :: (rest ++ '[' :: s)) =
                  (parsePathF g' ((c :: rest).drop
                      ((c :: rest).takeWhile (fun ch => !(isKeyStop ch))).length ++ '[' :: s)).map
                    (fun t =>
                      Step.key ((c :: rest).takeWhile (fun ch => !(isKeyStop ch))) :: t) := by
                conv_lhs => unfold parsePathF
                rw [if_neg hc, if_neg hc2]
                simp only [htkap, hdrop]
              rw [hgu]
              have hlt : ((c :: rest).drop
                  ((c :: rest).takeWhile (fun ch => !(isKeyStop ch))).length).length < f := by
                rw [hkey]
                simp only [List.length_cons, List.drop_succ_cons, List.length_drop]
                have := (List.takeWhile_prefix (l := rest)
                  (fun ch => !(isKeyStop ch))).length_le
                simp at hlen
                omega
              have hglt : ((c :: rest).drop
                  ((c :: rest).takeWhile (fun ch => !(isKeyStop ch))).length ++
                    '[' :: s).length < g' := by
                rw [hkey]
                simp only [List.length_append, List.length_cons, List.drop_succ_cons,
                  List.length_drop]
                simp at hg
                omega
              rw [ih ((c :: rest).drop
                  ((c :: rest).takeWhile (fun ch => !(isKeyStop ch))).length) s l hlt hrec
                g' hglt]
              cases hp : parse_path ('[' :: s) with
              | error e => simp [Except.map]
              | ok t => simp [Except.map]

/-- A successfully parsed prefix followed by an unterminated bracket fails
with `InvalidKeyPath`. -/
theorem parse_path_append_unclosed (q s : Chars) (steps : List Step)
    (hq : parse_path q = .ok steps) (hs : ']' ∉ s) :
    parse_path (q ++ '[' :: s) = .error .invalidKeyPath := by
  have hap : parse_path (q ++ '[' :: s) =
      (parse_path ('[' :: s)).map (fun l => steps ++ l) :=
    parsePathF_append (q.length + 1) q s steps (by omega) hq
      ((q ++ '[' :: s).length + 1) (by omega)
  have hsuf : parse_path ('[' :: s) = .error .invalidKeyPath := by
    show parsePathF (s.length + 1 + 1) ('[' :: s) = _
    unfold parsePathF
    rw [if_neg (by decide), if_pos rfl, splitAtChar_none_of_not_mem hs]
  rw [hap, hsuf]
  rfl

/-- A successfully parsed prefix followed by a closed bracket whose body is
not an integer literal fails with Python's `ValueError`. -/
theorem parse_path_append_badIndex (q s r : Chars) (steps : List Step)
    (hq : parse_path q = .ok steps) (hs : ']' ∉ s) (hint : pyInt s = none) :
    parse_path (q ++ '[' :: (s ++ ']' :: r)) = .error .valueError := by
  have hap : parse_path (q ++ '[' :: (s ++ ']' :: r)) =
      (parse_path ('[' :: (s ++ ']' :: r))).map (fun l => steps ++ l) :=
    parsePathF_append (q.length + 1) q (s ++ ']' :: r) steps (by omega) hq
      ((q ++ '[' :: (s ++ ']' :: r)).length + 1) (by omega)
  have hsuf : parse_path ('[' :: (s ++ ']' :: r)) = .error .valueError := by
    show parsePathF ((s ++ ']' :: r).length + 1 + 1) ('[' :: (s ++ ']' :: r)) = _
    unfold parsePathF
    rw [if_neg (by decide), if_pos rfl, splitAtChar_first r s hs]
    simp [hint]
  rw [hap, hsuf]
  rfl

/-- C7 (corrected): `parse_path` fails with `InvalidKeyPath` on an
unterminated bracket — on any path containing `[` but no `]` at all, and on
any path formed by appending `[` plus a `]`-free tail to a successfully
parsed prefix — while a bracket whose body is not an integer literal raises
Python's `ValueError` (a generic error, not `InvalidKeyPath`), and empty
tokens are skipped silently: a dot is consumed with no error and the empty
path parses to an empty step list.  The original claim, that consecutive
dots or an empty path fail with `InvalidKeyPath`, is refuted by
`c7_counterexample`. -/
theorem c7_bracket_and_empty_tokens :
    (∀ p : Chars, '[' ∈ p → ']' ∉ p → parse_path p = .error .invalidKeyPath) ∧
    (∀ (q s : Chars) (steps : List Step), parse_path q = .ok steps → ']' ∉ s →
      parse_path (q ++ '[' :: s) = .error .invalidKeyPath) ∧
    (∀ (q s r : Chars) (steps : List Step), parse_path q = .ok steps → ']' ∉ s →
      pyInt s = none → parse_path (q ++ '[' :: (s ++ ']' :: r)) = .error .valueError) ∧
    (∀ q : Chars, parse_path ('.' :: q) = parse_path q) ∧
    parse_path ([] : Chars) = .ok [] :=
  ⟨fun p hbr hnobr => parsePathF_unclosed (p.length + 1) p (by omega) hbr hnobr,
   parse_path_append_unclosed, parse_path_append_badIndex, parse_path_dot, rfl⟩

/-- C7 witness: the prefix `"a[0].b"` parses successfully; with an
unterminated `[` appended the path fails with `InvalidKeyPath`, and with a
non-integer bracket body appended it raises `ValueError`. -/
theorem c7_witness :
    parse_path ("a[0].b".toList) =
      .ok [Step.key ("a".toList), Step.idx 0, Step.key ("b".toList)] ∧
    parse_path ("a[0].b".toList ++ '[' :: []) = .error .invalidKeyPath ∧
    parse_path ("a[0].b".toList ++ '[' :: ("x".toList ++ ']' :: [])) =
      .error .valueError :=
  ⟨by decide,
   c7_bracket_and_empty_tokens.2.1 ("a[0].b".toList) []
     [Step.key ("a".toList), Step.idx 0, Step.key ("b".toList)] (by decide) (by decide),
   c7_bracket_and_empty_tokens.2.2.1 ("a[0].b".toList) ("x".toList) []
     [Step.key ("a".toList), Step.idx 0, Step.key ("b".toList)] (by decide) (by decide)
     (by decide)⟩

/-- C7 counterexample: the claim requires `parse_path` to fail with
`InvalidKeyPath` on the empty token between consecutive dots, but
`"a..b"` parses successfully (the dots are skipped). -/
theorem c7_counterexample :
    parse_path ("a..b".toList) = .ok [Step.key ("a".toList), Step.key ("b".toList)] := by
  decide

/-! ### Claim theorems for JSON serialization and indent detection -/

theorem digitChar_ne_nl (d : Nat) : digitChar d ≠ '\n' := by
  unfold digitChar
  repeat' split
  all_goals decide

theorem natToCharsF_ne_nil (f n : Nat) (hf : f ≠ 0) : natToCharsF f n ≠ [] := by
  cases f with
  | zero => exact absurd rfl hf
  | succ f =>
    unfold natToCharsF
    split
    · simp
    · simp

theorem endsNl_natToCharsF (f n : Nat) : endsNl (natToCharsF f n) = false := by
  cases f with
  | zero => rfl
  | succ f =>
    unfold natToCharsF
    split
    · simp [endsNl, digitChar_ne_nl]
    · simp [endsNl, List.getLast?_concat, digitChar_ne_nl]

theorem getLast?_cons_ne {c : Char} {l : Chars} (h : l ≠ []) :
    (c :: l).getLast? = l.getLast? := by
  cases l with
  | nil => exact absurd rfl h
  | cons a l' => simp [List.getLast?_cons_cons]

theorem natToChars_ne_nil (m : Nat) : natToChars m ≠ [] :=
  natToCharsF_ne_nil (m + 1) m (by omega)

theorem endsNl_intToChars (n : Int) : endsNl (intToChars n) = false := by
  unfold intToChars
  split
  · unfold endsNl
    rw [getLast?_cons_ne (natToChars_ne_nil _)]
    exact endsNl_natToCharsF _ _
  · exact endsNl_natToCharsF _ _

theorem endsNl_concat (l : Chars) (c : Char) (hc : c ≠ '\n') :
    endsNl (l ++ [c]) = false := by
  simp [endsNl, List.getLast?_concat, hc]

/-- The serializer never ends its output with a newline: every value closes
with a bracket, a brace, a quote, a digit or a keyword letter. -/
theorem dumps_not_endsNl (ind lvl : Nat) (v : JValue) :
    endsNl (dumpsVal ind lvl v) = false := by
  cases v with
  | null => show endsNl ("null".toList) = false; decide
  | jbool b =>
    cases b with
    | true => show endsNl ("true".toList) = false; decide
    | false => show endsNl ("false".toList) = false; decide
  | jnum n => show endsNl (intToChars n) = false; exact endsNl_intToChars n
  | jstr s =>
    show endsNl (('"' :: escString s) ++ ['"']) = false
    exact endsNl_concat _ _ (by decide)
  | jarr xs =>
    cases xs with
    | nil => show endsNl ['[', ']'] = false; decide
    | cons x tl =>
      show endsNl (_ ++ [']']) = false
      exact endsNl_concat _ _ (by decide)
  | jobj fs =>
    cases fs with
    | fnil => show endsNl ['\x7b', '\x7d'] = false; decide
    | fcons k v tl =>
      show endsNl (_ ++ ['\x7d']) = false
      exact endsNl_concat _ _ (by decide)

theorem jsonNewText_endsNl (data : JValue) (orig : Chars) :
    endsNl (jsonNewText data orig) = endsNl orig := by
  simp only [jsonNewText]
  have h : endsNl (dumps data (detect_indent orig)) = false :=
    dumps_not_endsNl (detect_indent orig) 0 data
  by_cases ho : endsNl orig = true
  · rw [if_pos ⟨ho, h⟩, ho]
    simp [endsNl, List.getLast?_concat]
  · have ho' : endsNl orig = false := by
      cases hv : endsNl orig
      · rfl
      · exact absurd hv ho
    rw [if_neg (by rintro ⟨h1, -⟩; exact ho h1), h, ho']

theorem splitlinesGo_cons (keep : Bool) (acc : Chars) (c : Char) (rest : Chars) :
    splitlinesGo keep acc (c :: rest) =
      if c = '\n' then
        (acc.reverse ++ if keep then ['\n'] else []) :: splitlinesGo keep [] rest
      else if c = '\r' then
        match rest with
        | '\n' :: rest' =>
          (acc.reverse ++ if keep then ['\r', '\n'] else []) :: splitlinesGo keep [] rest'
        | [] => [acc.reverse ++ if keep then ['\r'] else []]
        | c2 :: rest2 =>
          (acc.reverse ++ if keep then ['\r'] else []) :: splitlinesGo keep [] (c2 :: rest2)
      else splitlinesGo keep (c :: acc) rest := by
  conv_lhs => unfold splitlinesGo
  rfl

theorem splitlinesGo_cons_nonterm (keep : Bool) (ch : Char) (h1 : ch ≠ '\n')
    (h2 : ch ≠ '\r') (acc l : Chars) :
    splitlinesGo keep acc (ch :: l) = splitlinesGo keep (ch :: acc) l := by
  rw [splitlinesGo_cons, if_neg h1, if_neg h2]

theorem splitlinesGo_crlf (keep : Bool) (acc l : Chars) :
    splitlinesGo keep acc ('\r' :: '\n' :: l) =
      (acc.reverse ++ if keep then ['\r', '\n'] else []) :: splitlinesGo keep [] l := by
  rw [splitlinesGo_cons, if_neg (by decide), if_pos rfl]
  rfl

theorem splitlinesGo_cr_head (keep : Bool) (acc l : Chars) (h : l.head? ≠ some '\n') :
    splitlinesGo keep acc ('\r' :: l) =
      (acc.reverse ++ if keep then ['\r'] else []) :: splitlinesGo keep [] l := by
  rw [splitlinesGo_cons, if_neg (by decide), if_pos rfl]
  cases l with
  | nil => simp [splitlinesGo]
  | cons c2 rest2 =>
    split
    all_goals simp_all

/-- The first line reported by `splitlines` is the longest terminator-free
prefix (with the pending accumulator prepended). -/
theorem pySplitlines_first : ∀ (l acc : Chars), l ≠ [] ∨ acc ≠ [] →
    ∃ lns, splitlinesGo false acc l =
      (acc.reverse ++ l.takeWhile (fun ch => !(ch = '\n' ∨ ch = '\r'))) :: lns := by
  intro l
  induction l with
  | nil =>
    intro acc h
    rcases h with h | h
    · exact absurd rfl h
    · refine ⟨[], ?_⟩
      show (if acc = [] then [] else [acc.reverse]) = _
      rw [if_neg h]
      simp
  | cons c rest ih =>
    intro acc _
    by_cases h1 : c = '\n'
    · subst h1
      refine ⟨splitlinesGo false [] rest, ?_⟩
      rw [splitlinesGo_cons, if_pos rfl, List.takeWhile_cons_of_neg (by decide)]
      simp
    · by_cases h2 : c = '\r'
      · subst h2
        rw [List.takeWhile_cons_of_neg (by decide)]
        by_cases hh : rest.head? = some '\n'
        · obtain ⟨rest2, rfl⟩ : ∃ rest2, rest = '\n' :: rest2 := by
            cases rest with
            | nil => simp at hh
            | cons a b =>
              simp only [List.head?_cons, Option.some.injEq] at hh
              exact ⟨b, by rw [hh]⟩
          refine ⟨splitlinesGo false [] rest2, ?_⟩
          rw [splitlinesGo_crlf]
          simp
        · refine ⟨splitlinesGo false [] rest, ?_⟩
          rw [splitlinesGo_cr_head false acc rest hh]
          simp
      · rw [splitlinesGo_cons_nonterm false c h1 h2]
        obtain ⟨lns, hl⟩ := ih (c :: acc) (Or.inr (by simp))
        refine ⟨lns, ?_⟩
        rw [hl, List.takeWhile_cons_of_pos (by simp [h1, h2])]
        simp

theorem takeWhile_replicate_space (p : Char → Bool) (hp : p ' ' = true) :
    ∀ (k : Nat) (l : Chars), (List.replicate k ' ' ++ l).takeWhile p =
      List.replicate k ' ' ++ l.takeWhile p := by
  intro k
  induction k with
  | zero => intro l; simp
  | succ k ih =>
    intro l
    rw [List.replicate_succ, List.cons_append, List.takeWhile_cons_of_pos hp, ih]
    rfl

theorem takeWhile_spaces_stop (k : Nat) (c : Char) (hc : c ≠ ' ') (body : Chars) :
    (List.replicate k ' ' ++ c :: body).takeWhile (fun x => x = ' ') =
      List.replicate k ' ' := by
  rw [takeWhile_replicate_space _ (by decide), List.takeWhile_cons_of_neg (by simp [hc])]
  simp

theorem detectIndentGo_cons_head (c : Char) (tl : Chars) (rest : List Chars)
    (h : (c :: tl).all isPySpace = false) :
    detectIndentGo ((c :: tl) :: rest) =
      (if c = ' ' then ((c :: tl).takeWhile (fun x => x = ' ')).length
       else if c = '\t' then ((c :: tl).takeWhile (fun x => x = '\t')).length
       else 2) := by
  conv_lhs => unfold detectIndentGo
  rw [if_neg (by simp [h])]

/-- `detect_indent` on a text whose first line consists of `k` spaces
followed by a non-whitespace character: `k` when `k > 0`, the default `2`
otherwise — regardless of the indentation of any deeper line. -/
theorem detect_indent_first_line (k : Nat) (c : Char) (rest : Chars)
    (hc : isPySpace c = false) :
    detect_indent (List.replicate k ' ' ++ c :: rest) = if k = 0 then 2 else k := by
  have hcn : c ≠ '\n' := by rintro rfl; simp [isPySpace] at hc
  have hcr : c ≠ '\r' := by rintro rfl; simp [isPySpace] at hc
  have hcs : c ≠ ' ' := by rintro rfl; simp [isPySpace] at hc
  have hct : c ≠ '\t' := by rintro rfl; simp [isPySpace] at hc
  obtain ⟨lns, hsplit⟩ := pySplitlines_first (List.replicate k ' ' ++ c :: rest) []
    (Or.inl (by simp))
  unfold detect_indent pySplitlines
  rw [hsplit]
  have hline : (List.replicate k ' ' ++ c :: rest).takeWhile
      (fun ch => !(ch = '\n' ∨ ch = '\r')) =
      List.replicate k ' ' ++ c :: rest.takeWhile (fun ch => !(ch = '\n' ∨ ch = '\r')) := by
    rw [takeWhile_replicate_space _ (by decide), List.takeWhile_cons_of_pos
      (by simp [hcn, hcr])]
  rw [hline]
  simp only [List.reverse_nil, List.nil_append]
  have hall : (List.replicate k ' ' ++ c ::
      rest.takeWhile (fun ch => !(ch = '\n' ∨ ch = '\r'))).all isPySpace = false := by
    rw [List.all_eq_false]
    exact ⟨c, List.mem_append.2 (Or.inr (by simp)), by simp [hc]⟩
  cases k with
  | zero =>
    simp only [List.replicate_zero, List.nil_append] at hall ⊢
    rw [detectIndentGo_cons_head c _ _ hall, if_neg hcs, if_neg hct]
    simp
  | succ k' =>
    rw [List.replicate_succ, List.cons_append] at hall ⊢
    rw [detectIndentGo_cons_head ' ' _ _ hall, if_pos rfl]
    rw [show (' ' :: (List.replicate k' ' ' ++ c ::
        rest.takeWhile (fun ch => !(ch = '\n' ∨ ch = '\r')))) =
        List.replicate (k' + 1) ' ' ++ c ::
          rest.takeWhile (fun ch => !(ch = '\n' ∨ ch = '\r')) by
      rw [List.replicate_succ, List.cons_append]]
    rw [takeWhile_spaces_stop _ _ hcs]
    simp

/-- The loop of `detect_indent` skips every all-whitespace line. -/
theorem detectIndentGo_blank_prefix : ∀ (bs rest : List Chars),
    (∀ b ∈ bs, b.all isPySpace = true) →
    detectIndentGo (bs ++ rest) = detectIndentGo rest := by
  intro bs
  induction bs with
  | nil => intro rest _; rfl
  | cons b tl ih =>
    intro rest h
    rw [List.cons_append]
    conv_lhs => unfold detectIndentGo
    rw [if_pos (h b (by simp))]
    exact ih rest (fun x hx => h x (by simp [hx]))

/-- C8 (corrected): the serializer's trailing newline matches the original
file's; and the indentation width is taken from the first non-blank line of
the document — every preceding all-whitespace line is skipped, and the width
is that line's leading space run when it starts with a space, its leading
tab run when it starts with a tab, and the default `2` otherwise — not from
the first indented line, as the original claim states (refuted by
`c8_counterexample`). -/
theorem c8_serialization_indent_and_newline :
    (∀ (data : JValue) (orig : Chars), endsNl (jsonNewText data orig) = endsNl orig) ∧
    (∀ (orig : Chars) (bs : List Chars) (c : Char) (tl : Chars) (ls : List Chars),
      pySplitlines orig = bs ++ (c :: tl) :: ls →
      (∀ b ∈ bs, b.all isPySpace = true) →
      (c :: tl).all isPySpace = false →
      detect_indent orig =
        (if c = ' ' then ((c :: tl).takeWhile (fun x => x = ' ')).length
         else if c = '\t' then ((c :: tl).takeWhile (fun x => x = '\t')).length
         else 2)) := by
  refine ⟨fun data orig => jsonNewText_endsNl data orig, ?_⟩
  intro orig bs c tl ls hsp hbs hnb
  unfold detect_indent
  rw [hsp, detectIndentGo_blank_prefix bs _ hbs, detectIndentGo_cons_head c tl ls hnb]

/-- C8 witness: a document with a leading blank line and a tab-indented
first non-blank line (tab run of width 3), plus the trailing-newline
conjunct at a concrete document. -/
theorem c8_witness :
    pySplitlines ("\n\t\t\ta\n b".toList) =
        [([] : Chars)] ++ ('\t' :: "\t\ta".toList) :: [" b".toList] ∧
    (∀ b ∈ [([] : Chars)], b.all isPySpace = true) ∧
    ('\t' :: "\t\ta".toList).all isPySpace = false ∧
    endsNl (jsonNewText JValue.null ("[]\n".toList)) = endsNl ("[]\n".toList) ∧
    detect_indent ("\n\t\t\ta\n b".toList) =
      (if '\t' = ' ' then (('\t' :: "\t\ta".toList).takeWhile (fun x => x = ' ')).length
       else if '\t' = '\t' then (('\t' :: "\t\ta".toList).takeWhile (fun x => x = '\t')).length
       else 2) :=
  ⟨by decide, by decide, by decide,
   c8_serialization_indent_and_newline.1 JValue.null ("[]\n".toList),
   c8_serialization_indent_and_newline.2 ("\n\t\t\ta\n b".toList) [([] : Chars)]
     '\t' ("\t\ta".toList) [" b".toList] (by decide) (by decide) (by decide)⟩

/-- C8 counterexample: for the document `"{\n    \"a\": 1\n}"` the first
indented line has width 4, but the code serializes with the default width 2
(it only examines the first non-blank line, here `"{"`), and the two widths
produce observably different output. -/
theorem c8_counterexample :
    specIndentOfText ("\x7b\n    \"a\": 1\n\x7d".toList) = some 4 ∧
    detect_indent ("\x7b\n    \"a\": 1\n\x7d".toList) = 2 ∧
    jsonNewText (.jobj (.fcons ("a".toList) (.jnum 1) .fnil))
        ("\x7b\n    \"a\": 1\n\x7d".toList) =
      dumps (.jobj (.fcons ("a".toList) (.jnum 1) .fnil)) 2 ∧
    dumps (.jobj (.fcons ("a".toList) (.jnum 1) .fnil)) 2 ≠
      dumps (.jobj (.fcons ("a".toList) (.jnum 1) .fnil)) 4 := by
  refine ⟨by decide, by decide, by decide, by decide⟩

/-- C9 (corrected): the plain-text command follows the documented scheme —
0 on success (including dry runs), 1 on no-match/ambiguity, 2 on
file-not-found or read error, 3 on write error, 4 on decode error — but the
structured JSON command does not: its exit code is always 0 or 1, and it is
0 exactly when every stage succeeds (file read, JSON parse, path parse,
navigation, replacement parse, mutation and write), so every failure path —
file-not-found, JSON parse, key-path, replacement-parse and write errors —
exits 1 (`c9_counterexample` shows 1, not 2, on file-not-found). -/
theorem c9_exit_codes :
    (∀ (s r : Chars) (m d w st ro dec : Bool) (wr : WriteOutcome),
      (feditMain s r m d w st none ro dec wr).exit = 2) ∧
    (∀ (s r : Chars) (m d w st dec : Bool) (raw : Chars) (wr : WriteOutcome),
      (feditMain s r m d w st (some raw) false dec wr).exit = 2) ∧
    (∀ (s r : Chars) (m d w st : Bool) (raw : Chars) (wr : WriteOutcome),
      (feditMain s r m d w st (some raw) true false wr).exit = 4) ∧
    (∀ (s r : Chars) (m d w st : Bool) (raw : Chars) (wr : WriteOutcome) (e : EditErr),
      feditCompute raw raw s r m w st = .error e →
      (feditMain s r m d w st (some raw) true true wr).exit = 1) ∧
    (∀ (s r : Chars) (m w st : Bool) (raw : Chars) (out : Chars × Nat) (wr : WriteOutcome),
      feditCompute raw raw s r m w st = .ok out →
      (feditMain s r m true w st (some raw) true true wr).exit = 0) ∧
    (∀ (s r : Chars) (m w st : Bool) (raw : Chars) (out : Chars × Nat),
      feditCompute raw raw s r m w st = .ok out →
      (feditMain s r m false w st (some raw) true true WriteOutcome.ok).exit = 0) ∧
    (∀ (s r : Chars) (m w st : Bool) (raw : Chars) (out : Chars × Nat),
      feditCompute raw raw s r m w st = .ok out →
      (feditMain s r m false w st (some raw) true true WriteOutcome.fail).exit = 3) ∧
    (∀ (st : Bool) (p r : Chars) (target : Option Chars) (parsed rp : Option JValue)
        (wr : WriteOutcome),
      (jsonMain st p r target parsed rp wr).exit = 0 ∨
        (jsonMain st p r target parsed rp wr).exit = 1) ∧
    (∀ (p r : Chars) (target : Option Chars) (parsed rp : Option JValue)
        (wr : WriteOutcome),
      (jsonMain true p r target parsed rp wr).exit = 0 ↔
        (∃ (orig : Chars) (data newV dtr : JValue) (steps : List Step)
            (pl : JValue × Step),
          target = some orig ∧ parsed = some data ∧ rp = some newV ∧
          parse_path p = .ok steps ∧ navigate_parent data steps = .ok pl ∧
          applyEdit data steps newV = .ok dtr ∧ wr = WriteOutcome.ok)) := by
  refine ⟨?_, ?_, ?_, ?_, ?_, ?_, ?_, ?_, ?_⟩
  · intro s r m d w st ro dec wr; rfl
  · intro s r m d w st dec raw wr; rfl
  · intro s r m d w st raw wr; rfl
  · intro s r m d w st raw wr e hfc
    simp [feditMain, hfc]
  · intro s r m w st raw out wr hfc
    rcases out with ⟨final, cnt⟩
    simp [feditMain, hfc]
  · intro s r m w st raw out hfc
    rcases out with ⟨final, cnt⟩
    simp [feditMain, hfc]
  · intro s r m w st raw out hfc
    rcases out with ⟨final, cnt⟩
    simp [feditMain, hfc]
  · intro st p r target parsed rp wr
    rcases target with _ | content <;> rcases parsed with _ | data <;>
      rcases rp with _ | v <;> rcases wr with _ | _ <;>
      simp only [jsonMain] <;> repeat' split
    all_goals first
      | exact Or.inl rfl
      | exact Or.inr rfl
  · intro p r target parsed rp wr
    constructor
    · intro h
      rcases target with _ | orig
      · simp [jsonMain] at h
      rcases parsed with _ | data
      · simp [jsonMain] at h
      cases hpp : parse_path p with
      | error e => simp [jsonMain, hpp] at h
      | ok steps =>
        cases hnav : navigate_parent data steps with
        | error e => simp [jsonMain, hpp, hnav] at h
        | ok pl =>
          rcases rp with _ | newV
          · simp [jsonMain, hpp, hnav] at h
          cases happ : applyEdit data steps newV with
          | error e => simp [jsonMain, hpp, hnav, happ] at h
          | ok dtr =>
            cases wr with
            | ok => exact ⟨orig, data, newV, dtr, steps, pl, rfl, rfl, rfl, rfl, hnav,
                happ, rfl⟩
            | fail => simp [jsonMain, hpp, hnav, happ] at h
    · rintro ⟨orig, data, newV, dtr, steps, pl, rfl, rfl, rfl, hpp, hnav, happ, rfl⟩
      simp [jsonMain, hpp, hnav, happ]

/-- C9 witness: the plain-text command's not-found and no-match codes, and
the structured JSON command's exit 0 at a concrete fully successful
invocation via the success characterization. -/
theorem c9_witness :
    (feditMain ("a".toList) ("b".toList) false false false false none true true
        WriteOutcome.ok).exit = 2 ∧
      feditCompute ("xyz".toList) ("xyz".toList) ("q".toList) ("b".toList)
        false false false = .error .noMatch ∧
      (feditMain ("q".toList) ("b".toList) false false false false
        (some ("xyz".toList)) true true WriteOutcome.ok).exit = 1 ∧
      (jsonMain true ("a".toList) ("2".toList) (some ("x".toList))
        (some (.jobj (.fcons ("a".toList) (.jnum 1) .fnil))) (some (.jnum 2))
        WriteOutcome.ok).exit = 0 :=
  ⟨c9_exit_codes.1 ("a".toList) ("b".toList) false false false false true true
      WriteOutcome.ok,
    by decide,
    c9_exit_codes.2.2.2.1 ("q".toList) ("b".toList) false false false false
      ("xyz".toList) WriteOutcome.ok EditErr.noMatch (by decide),
    (c9_exit_codes.2.2.2.2.2.2.2.2 ("a".toList) ("2".toList) (some ("x".toList))
        (some (.jobj (.fcons ("a".toList) (.jnum 1) .fnil))) (some (.jnum 2))
        WriteOutcome.ok).mpr
      ⟨"x".toList, .jobj (.fcons ("a".toList) (.jnum 1) .fnil), .jnum 2,
        .jobj (.fcons ("a".toList) (.jnum 2) .fnil), [Step.key ("a".toList)],
        (.jobj (.fcons ("a".toList) (.jnum 1) .fnil), Step.key ("a".toList)),
        rfl, rfl, rfl, rfl, rfl, rfl, rfl⟩⟩

/-- C9 counterexample: the structured JSON command exits 1, not 2, when the
target file does not exist, contradicting the claimed shared exit scheme. -/
theorem c9_counterexample :
    (jsonMain true ("a".toList) ("1".toList) none none none WriteOutcome.ok).exit = 1 ∧
      (jsonMain true ("a".toList) ("1".toList) none none none WriteOutcome.ok).exit ≠ 2 :=
  ⟨by decide, by decide⟩
